import Mathlib

/-!
Verification of the zuulcilint cross-file semantic consistency checkers.

The four checker functions of `zuulcilint/checker.py` are embedded shallowly:
parsed YAML documents become the inductive type `Val`, Python dictionary /
list / string operations become total Lean functions, and operations that can
raise a Python exception return `Except PyErr`.  The filesystem existence
test of `check_job_playbook_paths` is abstracted as a boolean predicate on
path strings, exactly as the code uses `pathlib.Path(p).exists()`.
-/

namespace Zuulcilint

/-- A parsed YAML value as manipulated by the Python checker code: strings,
integers, null, lists, and string-keyed mappings. -/
inductive Val : Type where
  | str (s : String)
  | int (n : Int)
  | null
  | list (xs : List Val)
  | dict (kvs : List (String × Val))

mutual

/-- Boolean equality on `Val`, mirroring Python `==` on parsed YAML data. -/
def Val.beq : Val → Val → Bool
  | .str a, .str b => a == b
  | .int a, .int b => a == b
  | .null, .null => true
  | .list xs, .list ys => Val.beqList xs ys
  | .dict xs, .dict ys => Val.beqKV xs ys
  | _, _ => false

/-- Pointwise `Val.beq` on lists. -/
def Val.beqList : List Val → List Val → Bool
  | [], [] => true
  | x :: xs, y :: ys => Val.beq x y && Val.beqList xs ys
  | _, _ => false

/-- Pointwise `Val.beq` on key-value lists. -/
def Val.beqKV : List (String × Val) → List (String × Val) → Bool
  | [], [] => true
  | (k1, v1) :: xs, (k2, v2) :: ys => k1 == k2 && Val.beq v1 v2 && Val.beqKV xs ys
  | _, _ => false

end

mutual

theorem Val.beq_iff : ∀ a b, Val.beq a b = true ↔ a = b
  | .str a, .str b => by simp [Val.beq]
  | .int a, .int b => by simp [Val.beq]
  | .null, .null => by simp [Val.beq]
  | .list xs, .list ys => by
      simp only [Val.beq, Val.beqList_iff xs ys, Val.list.injEq]
  | .dict xs, .dict ys => by
      simp only [Val.beq, Val.beqKV_iff xs ys, Val.dict.injEq]
  | .str _, .int _ => by simp [Val.beq]
  | .str _, .null => by simp [Val.beq]
  | .str _, .list _ => by simp [Val.beq]
  | .str _, .dict _ => by simp [Val.beq]
  | .int _, .str _ => by simp [Val.beq]
  | .int _, .null => by simp [Val.beq]
  | .int _, .list _ => by simp [Val.beq]
  | .int _, .dict _ => by simp [Val.beq]
  | .null, .str _ => by simp [Val.beq]
  | .null, .int _ => by simp [Val.beq]
  | .null, .list _ => by simp [Val.beq]
  | .null, .dict _ => by simp [Val.beq]
  | .list _, .str _ => by simp [Val.beq]
  | .list _, .int _ => by simp [Val.beq]
  | .list _, .null => by simp [Val.beq]
  | .list _, .dict _ => by simp [Val.beq]
  | .dict _, .str _ => by simp [Val.beq]
  | .dict _, .int _ => by simp [Val.beq]
  | .dict _, .null => by simp [Val.beq]
  | .dict _, .list _ => by simp [Val.beq]

theorem Val.beqList_iff : ∀ xs ys, Val.beqList xs ys = true ↔ xs = ys
  | [], [] => by simp [Val.beqList]
  | x :: xs, y :: ys => by
      simp [Val.beqList, Val.beq_iff x y, Val.beqList_iff xs ys]
  | [], _ :: _ => by simp [Val.beqList]
  | _ :: _, [] => by simp [Val.beqList]

theorem Val.beqKV_iff : ∀ xs ys, Val.beqKV xs ys = true ↔ xs = ys
  | [], [] => by simp [Val.beqKV]
  | (k1, v1) :: xs, (k2, v2) :: ys => by
      simp [Val.beqKV, Val.beq_iff v1 v2, Val.beqKV_iff xs ys]
  | [], _ :: _ => by simp [Val.beqKV]
  | _ :: _, [] => by simp [Val.beqKV]

end

instance : DecidableEq Val := fun a b =>
  decidable_of_iff (Val.beq a b = true) (Val.beq_iff a b)

/-- The Python exceptions the checker code can raise or catch. -/
inductive PyErr : Type where
  | keyError
  | typeError
  | attributeError
deriving DecidableEq

instance {ε α : Type} [DecidableEq ε] [DecidableEq α] : DecidableEq (Except ε α) :=
  fun x y =>
    match x, y with
    | .ok a, .ok b =>
        if h : a = b then isTrue (by rw [h])
        else isFalse (fun hc => h (Except.ok.inj hc))
    | .error a, .error b =>
        if h : a = b then isTrue (by rw [h])
        else isFalse (fun hc => h (Except.error.inj hc))
    | .ok _, .error _ => isFalse (fun hc => Except.noConfusion hc)
    | .error _, .ok _ => isFalse (fun hc => Except.noConfusion hc)

/-- Lookup in a string-keyed mapping (parsed YAML dictionaries have unique
keys, so first-match lookup models Python dictionary lookup). -/
def vlookup : List (String × Val) → String → Option Val
  | [], _ => none
  | (k, v) :: rest, q => if k = q then some v else vlookup rest q

/-- Python subscript `v[k]` with a string key: mapping lookup raising
`KeyError` on a missing key, `TypeError` on every non-mapping value. -/
def getItem (v : Val) (k : String) : Except PyErr Val :=
  match v with
  | .dict kvs =>
      match vlookup kvs k with
      | some x => .ok x
      | none => .error .keyError
  | _ => .error .typeError

/-- Python `v.get(k, dflt)`: only mappings have a `get` attribute; any other
receiver raises `AttributeError`. -/
def dictGet (v : Val) (k : String) (dflt : Val) : Except PyErr Val :=
  match v with
  | .dict kvs => .ok ((vlookup kvs k).getD dflt)
  | _ => .error .attributeError

/-- Python iteration over a value: lists yield their elements, mappings their
keys, strings their characters (as one-character strings); integers and null
are not iterable and raise `TypeError`. -/
def pyIter (v : Val) : Except PyErr (List Val) :=
  match v with
  | .list xs => .ok xs
  | .dict kvs => .ok (kvs.map (fun p => Val.str p.1))
  | .str s => .ok (s.data.map (fun c => Val.str (String.mk [c])))
  | _ => .error .typeError

/-- Python truthiness of a parsed YAML value. -/
def truthy : Val → Bool
  | .str s => !s.isEmpty
  | .int n => n != 0
  | .null => false
  | .list xs => !xs.isEmpty
  | .dict kvs => !kvs.isEmpty

/-- Whether a value is hashable in Python (usable as a set element or
dictionary key): strings, integers and null are, lists and mappings are not. -/
def hashable : Val → Bool
  | .list _ => false
  | .dict _ => false
  | _ => true

/-- Python membership test `needle in v` for a string needle: key test on
mappings, substring test on strings, element test on lists; `TypeError`
otherwise. -/
def pyContains (v : Val) (needle : String) : Except PyErr Bool :=
  match v with
  | .dict kvs => .ok (vlookup kvs needle).isSome
  | .str s => .ok ((s.splitOn needle).length > 1)
  | .list xs => .ok (xs.any (fun x => decide (x = Val.str needle)))
  | _ => .error .typeError

/-- Python `set.add`: inserting an unhashable element raises `TypeError`. -/
def setAdd (s : Finset Val) (v : Val) : Except PyErr (Finset Val) :=
  if hashable v then .ok (insert v s) else .error .typeError

/-- Python `set(xs)` built from a list, raising `TypeError` on the first
unhashable element. -/
def setOfList : List Val → Except PyErr (Finset Val)
  | [] => .ok ∅
  | v :: vs =>
      if hashable v then do
        let s ← setOfList vs
        pure (insert v s)
      else .error .typeError

/-! ## check_job_playbook_paths -/

/-- The four phase keys scanned by `check_job_playbook_paths`, in source
order. -/
def phaseKeys : List String := ["pre-run", "run", "post-run", "cleanup-run"]

/-- Normalization and collection of the phase entries of a job mapping, in
phase order and source order: an absent phase (or an explicit null, which
Python `dict.get` also returns as `None`) contributes nothing, a list value
contributes its elements, any other value is wrapped in a one-element list. -/
def collectEntries (job : List (String × Val)) : List Val :=
  phaseKeys.flatMap (fun key =>
    match (vlookup job key).getD Val.null with
    | .null => []
    | .list xs => xs
    | v => [v])

/-- Processing of one normalized phase entry by `check_job_playbook_paths`:
a plain string is a path reference; a mapping with a `name` key has that value
passed to `pathlib.Path`, which raises `TypeError` unless it is a string;
every other shape is ignored.  Returns the (zero or one) missing paths the
entry contributes. -/
def checkPhaseEntry (ex : String → Bool) (p : Val) : Except PyErr (List String) :=
  match p with
  | .str s => .ok (if ex s then [] else [s])
  | .dict kvs =>
      match vlookup kvs "name" with
      | none => .ok []
      | some (.str s) => .ok (if ex s then [] else [s])
      | some _ => .error .typeError
  | _ => .ok []

/-- Sequential processing of the normalized entries, preserving encounter
order and stopping at the first raised exception. -/
def runPhaseEntries (ex : String → Bool) : List Val → Except PyErr (List String)
  | [] => .ok []
  | p :: ps => do
      let here ← checkPhaseEntry ex p
      let rest ← runPhaseEntries ex ps
      pure (here ++ rest)

/-- Embedding of `check_job_playbook_paths` from `zuulcilint/checker.py`,
with the filesystem existence test abstracted as the predicate `ex`. -/
def check_job_playbook_paths (ex : String → Bool) (job : List (String × Val)) :
    Except PyErr (List String) :=
  runPhaseEntries ex (collectEntries job)

/-! ## check_duplicated_jobs -/

/-- The names generated by `set(job[.str job][.str name] for job in joblist)`
for one file: each document is subscripted twice and the resulting name must
be hashable; the first exception aborts the whole file computation. -/
def fileNames : List Val → Except PyErr (List Val)
  | [] => .ok []
  | j :: js => do
      let a ← getItem j "job"
      let n ← getItem a "name"
      if hashable n then do
        let rest ← fileNames js
        pure (n :: rest)
      else .error .typeError

/-- The loop of `check_duplicated_jobs` over the per-file job lists, with the
running seen-across-files set and the duplicated accumulator; a `KeyError`
from a file name-set computation skips that entire file, any other exception
propagates. -/
def dupJobsGo : List (List Val) → Finset Val → Finset Val → Except PyErr (Finset Val)
  | [], _seen, dup => .ok dup
  | f :: fs, seen, dup =>
      match fileNames f with
      | .error .keyError => dupJobsGo fs seen dup
      | .error e => .error e
      | .ok names =>
          let s := names.toFinset
          dupJobsGo fs (seen ∪ s) (dup ∪ (s ∩ seen))

/-- Embedding of `check_duplicated_jobs` from `zuulcilint/checker.py`.  The
Python function only reads `jobs.values()`, so the input is the list of
per-file job lists; the dictionary keys (file identities) are opaque and
distinct. -/
def check_duplicated_jobs (files : List (List Val)) : Except PyErr (Finset Val) :=
  dupJobsGo files ∅ ∅

/-! ## check_inexistent_nodesets -/

/-- One node entry of a declared node-set: its `name` is looked up (a missing
key raises `KeyError`, a non-mapping node raises `TypeError`, both uncaught);
a string name is added to the known set, a list name has every element added
individually, any other type of name is ignored. -/
def addKnownNode (s : Finset Val) (node : Val) : Except PyErr (Finset Val) := do
  let nm ← getItem node "name"
  match nm with
  | .str _ => setAdd s nm
  | .list xs => xs.foldlM setAdd s
  | _ => .ok s

/-- The first loop of `check_inexistent_nodesets`: build the set of known
node-set names from the declared node-sets.  Only the lookup of `nodes` is
guarded by the `try`/`except KeyError`. -/
def buildKnown : List Val → Finset Val → Except PyErr (Finset Val)
  | [], s => .ok s
  | ns :: rest, s => do
      let inner ← getItem ns "nodeset"
      let nm ← getItem inner "name"
      let s1 ← setAdd s nm
      match getItem inner "nodes" with
      | .error .keyError => buildKnown rest s1
      | .error e => .error e
      | .ok nodesVal => do
          let nodes ← pyIter nodesVal
          let s2 ← nodes.foldlM addKnownNode s1
          buildKnown rest s2

/-- The `except TypeError` fallback of the job reference loop: the whole
reference container is asked for a `name` attribute via `get` (raising
`AttributeError` on a non-mapping container); a truthy name not in the known
set is added to the findings, where the membership test itself raises
`TypeError` on an unhashable name. -/
def refFallback (known acc : Finset Val) (jobNodesets : Val) :
    Except PyErr (Finset Val) :=
  match jobNodesets with
  | .dict kvs =>
      let g := (vlookup kvs "name").getD Val.null
      if truthy g then
        if hashable g then .ok (if g ∈ known then acc else insert g acc)
        else .error .typeError
      else .ok acc
  | _ => .error .attributeError

/-- One element of a job node-set reference list: its `name` is tested for
membership in the known set (adding it to the findings when absent); a
`TypeError` from the subscript or from hashing falls back to
`refFallback`, while a `KeyError` (mapping element without a name)
propagates uncaught. -/
def refStep (known : Finset Val) (jobNodesets : Val) (acc : Finset Val)
    (el : Val) : Except PyErr (Finset Val) :=
  match getItem el "name" with
  | .ok nm =>
      if hashable nm then
        .ok (if nm ∈ known then acc else insert nm acc)
      else refFallback known acc jobNodesets
  | .error .typeError => refFallback known acc jobNodesets
  | .error e => .error e

/-- One job of the second loop of `check_inexistent_nodesets`: a string
nodeset is wrapped as a one-element reference list, an object nodeset
contributes its `nodes` value; only `KeyError` from these lookups skips the
job, and the resulting container is then iterated. -/
def nodesetJobStep (known : Finset Val) (acc : Finset Val) (job : Val) :
    Except PyErr (Finset Val) :=
  match (do
      let a ← getItem job "job"
      let nsv ← getItem a "nodeset"
      match nsv with
      | .str s => pure (Val.list [Val.dict [("name", Val.str s)]])
      | _ => getItem nsv "nodes" : Except PyErr Val) with
  | .error .keyError => .ok acc
  | .error e => .error e
  | .ok jobNodesets => do
      let els ← pyIter jobNodesets
      els.foldlM (refStep known jobNodesets) acc

/-- Embedding of `check_inexistent_nodesets` from `zuulcilint/checker.py`. -/
def check_inexistent_nodesets (nodesets : List Val) (jobs : List Val) :
    Except PyErr (Finset Val) := do
  let known ← buildKnown nodesets ∅
  jobs.foldlM (nodesetJobStep known) ∅

/-! ## check_duplicate_semaphore -/

/-- The internal per-job-name semaphore accumulators of
`check_duplicate_semaphore`: insertion-ordered association lists keyed by the
job name value. -/
abbrev SemMap := List (Val × List Val)

/-- Association-list lookup keyed by `Val` equality. -/
def mlookup : SemMap → Val → Option (List Val)
  | [], _ => none
  | (k, v) :: rest, q => if k = q then some v else mlookup rest q

/-- Python `dict.setdefault(k, [])`: hashing the key can raise `TypeError`;
an absent key is appended with an empty list, a present key leaves the map
unchanged. -/
def mapSetdefault (m : SemMap) (k : Val) : Except PyErr SemMap :=
  if hashable k then
    .ok (match mlookup m k with
      | some _ => m
      | none => m ++ [(k, [])])
  else .error .typeError

/-- In-place `append`/`extend` on the list stored at an existing key. -/
def mappend (m : SemMap) (k : Val) (xs : List Val) : SemMap :=
  m.map (fun p => if p.1 = k then (p.1, p.2 ++ xs) else p)

/-- The string-or-iterate normalization used for every `semaphores`
attribute: a string contributes itself, anything else is iterated
(`extend`). -/
def semsToList (v : Val) : Except PyErr (List Val) :=
  match v with
  | .str s => .ok [Val.str s]
  | _ => pyIter v

/-- The run-entry loop of `check_duplicate_semaphore`: a string entry is a
bare playbook and contributes nothing, any other entry has its `semaphores`
attribute read via `get` and normalized. -/
def runSemsOf : List Val → Except PyErr (List Val)
  | [] => .ok []
  | run :: rest =>
      match run with
      | .str _ => runSemsOf rest
      | _ => do
          let rsV ← dictGet run "semaphores" (Val.list [])
          let here ← semsToList rsV
          let there ← runSemsOf rest
          pure (here ++ there)

/-- Processing of one document by the collection loop of
`check_duplicate_semaphore`: skip null documents and documents not containing
`job`; skip documents whose job name is `None`; otherwise `setdefault` both
accumulators at the name, extend the job-level accumulator from `semaphores`,
and, unless `run` is a bare string, extend the run accumulator from the run
entries (a single mapping `run` is wrapped in a one-element list). -/
def processSemJob (st : SemMap × SemMap) (job : Val) :
    Except PyErr (SemMap × SemMap) :=
  match job with
  | .null => .ok st
  | _ => do
      let c ← pyContains job "job"
      if c then do
        let inner ← getItem job "job"
        let nameV ← dictGet inner "name" Val.null
        if nameV = Val.null then .ok st
        else do
          let jm1 ← mapSetdefault st.1 nameV
          let rm1 ← mapSetdefault st.2 nameV
          let semsV ← dictGet inner "semaphores" (Val.list [])
          let jmAdds ← semsToList semsV
          let jm2 := mappend jm1 nameV jmAdds
          let runV0 ← dictGet inner "run" Val.null
          match runV0 with
          | .str _ => .ok (jm2, rm1)
          | _ => do
              let runV ← dictGet inner "run" (Val.list [])
              let runEntries := match runV with
                | .dict kvs => Val.list [Val.dict kvs]
                | v => v
              let entries ← pyIter runEntries
              let rmAdds ← runSemsOf entries
              .ok (jm2, mappend rm1 nameV rmAdds)
      else .ok st

/-- The final loop of `check_duplicate_semaphore`: for every key of the
job-level accumulator (in insertion order), both stored lists are converted
to Python sets and the intersection is merged into the result. -/
def semFinal (rm : SemMap) : SemMap → Finset Val → Except PyErr (Finset Val)
  | [], acc => .ok acc
  | (k, l) :: rest, acc => do
      let js ← setOfList l
      let rs ← setOfList ((mlookup rm k).getD [])
      semFinal rm rest (acc ∪ (js ∩ rs))

/-- Embedding of `check_duplicate_semaphore` from `zuulcilint/checker.py`. -/
def check_duplicate_semaphore (jobs : List Val) : Except PyErr (Finset Val) := do
  let st ← jobs.foldlM processSemJob ([], [])
  semFinal st.2 st.1 ∅

/-! ## Specification-side descriptions and well-formedness for the path
checker -/

/-- Path reference extracted from one normalized phase entry, following the
specification: a bare string is a reference, a mapping contributes the value
of its `name` key, anything else contributes nothing. -/
def entryPathRef (p : Val) : Option String :=
  match p with
  | .str s => some s
  | .dict kvs =>
      match vlookup kvs "name" with
      | some (.str s) => some s
      | _ => none
  | _ => none

/-- All path references of a job, in phase order and source order. -/
def specPathRefs (job : List (String × Val)) : List String :=
  (collectEntries job).filterMap entryPathRef

/-- A normalized phase entry whose `name` value (when the entry is a mapping
that has one) is a string; every such entry is processed without raising. -/
def entryNameOK (p : Val) : Bool :=
  match p with
  | .dict kvs =>
      match vlookup kvs "name" with
      | none => true
      | some (.str _) => true
      | some _ => false
  | _ => true

@[simp] theorem ok_bind {α β : Type} (a : α) (f : α → Except PyErr β) :
    (Except.ok a >>= f : Except PyErr β) = f a := rfl

@[simp] theorem error_bind {α β : Type} (e : PyErr) (f : α → Except PyErr β) :
    (Except.error e >>= f : Except PyErr β) = Except.error e := rfl

@[simp] theorem pure_ok {α : Type} (a : α) :
    (pure a : Except PyErr α) = Except.ok a := rfl

theorem checkPhaseEntry_ok (ex : String → Bool) (p : Val) (h : entryNameOK p) :
    checkPhaseEntry ex p =
      .ok (match entryPathRef p with
        | some s => if ex s then [] else [s]
        | none => []) := by
  cases p with
  | str s => simp [checkPhaseEntry, entryPathRef]
  | dict kvs =>
      simp only [checkPhaseEntry, entryPathRef, entryNameOK] at *
      cases hv : vlookup kvs "name" with
      | none => simp
      | some v =>
          cases v <;> simp_all
  | int n => simp [checkPhaseEntry, entryPathRef]
  | null => simp [checkPhaseEntry, entryPathRef]
  | list xs => simp [checkPhaseEntry, entryPathRef]

theorem runPhaseEntries_ok (ex : String → Bool) (l : List Val)
    (h : ∀ p ∈ l, entryNameOK p) :
    runPhaseEntries ex l =
      .ok ((l.filterMap entryPathRef).filter (fun s => !ex s)) := by
  induction l with
  | nil => simp [runPhaseEntries]
  | cons p ps ih =>
      have hp : entryNameOK p := h p (by simp)
      have hps : ∀ q ∈ ps, entryNameOK q := fun q hq => h q (by simp [hq])
      rw [runPhaseEntries, checkPhaseEntry_ok ex p hp, ih hps]
      cases hr : entryPathRef p with
      | none => simp [hr]
      | some s =>
          by_cases hex : ex s <;> simp [hr, hex, List.filter_cons]

/-- C6.  For every job and every fixed filesystem-existence predicate (and
any phase shapes whose mapping entries carry string names), the checker
returns exactly the referenced paths for which the predicate is false, in
phase order pre-run, run, post-run, cleanup-run and source order within each
phase, duplicates preserved; a bare path string and a mapping of the form
name-to-path yield the same path reference (both become that path in
`specPathRefs`). -/
theorem check_job_playbook_paths_missing (ex : String → Bool)
    (job : List (String × Val)) (h : ∀ p ∈ collectEntries job, entryNameOK p) :
    check_job_playbook_paths ex job =
      .ok ((specPathRefs job).filter (fun s => !ex s)) := by
  unfold check_job_playbook_paths specPathRefs
  exact runPhaseEntries_ok ex (collectEntries job) h

/-- Witness for C6: the job of the repository test, with no path existing,
yields the three paths in phase order; the two reference forms agree. -/
theorem check_job_playbook_paths_missing_witness :
    check_job_playbook_paths (fun _ => false)
        [("name", Val.str "test-job"),
         ("pre-run", Val.str "playbooks/pre-run.yaml"),
         ("run", Val.list [Val.dict [("name", Val.str "playbooks/run.yaml")]]),
         ("post-run", Val.str "playbooks/post-run.yaml")] =
      .ok ["playbooks/pre-run.yaml", "playbooks/run.yaml",
           "playbooks/post-run.yaml"] := by
  rw [check_job_playbook_paths_missing (fun _ => false) _ (by decide)]
  rfl

/-- C7 counterexample: a phase entry that is a mapping whose `name` value is
a number makes the checker raise `TypeError`, so it does not return for every
shape of the four phase values. -/
theorem check_job_playbook_paths_raises :
    check_job_playbook_paths (fun _ => true)
        [("run", Val.dict [("name", Val.int 42)])] = .error .typeError := by
  rfl

/-- C7 amended.  The checker returns without raising for every job mapping
whose phase entries, after normalization, are each either a non-mapping value
(string, number, null, list -- non-reference shapes are silently ignored) or
a mapping whose `name` value, when the key is present, is a string; an absent
phase is skipped.  (The original claim fails only on mapping entries carrying
a non-string `name` value, which raise `TypeError`.) -/
theorem check_job_playbook_paths_total (ex : String → Bool)
    (job : List (String × Val)) (h : ∀ p ∈ collectEntries job, entryNameOK p) :
    ∃ l, check_job_playbook_paths ex job = .ok l := by
  exact ⟨_, check_job_playbook_paths_missing ex job h⟩

/-- Witness for the amended C7: a job mixing absent phases, numbers, null,
a nameless mapping and a list entry is processed without an exception. -/
theorem check_job_playbook_paths_total_witness :
    ∃ l, check_job_playbook_paths (fun _ => false)
        [("run", Val.list [Val.int 3, Val.null, Val.dict [],
                           Val.dict [("name", Val.str "x")], Val.list []]),
         ("pre-run", Val.int 7)] = .ok l :=
  check_job_playbook_paths_total (fun _ => false) _ (by decide)

/-! ## Specification-side descriptions and well-formedness for the duplicate
job checker -/

/-- The resolvable name of a job document, following the specification: the
value at `name` inside the mapping at `job`. -/
def docName (j : Val) : Option Val :=
  match j with
  | .dict kvs =>
      match vlookup kvs "job" with
      | some (.dict fs) => vlookup fs "name"
      | _ => none
  | _ => none

/-- The per-file set of declared job names (a name repeated within one file
counts once). -/
def fileNameSet (f : List Val) : Finset Val := (f.filterMap docName).toFinset

/-- A job document with a resolvable string name. -/
def wfNamedDoc (j : Val) : Bool :=
  match j with
  | .dict kvs =>
      match vlookup kvs "job" with
      | some (.dict fs) =>
          match vlookup fs "name" with
          | some (.str _) => true
          | _ => false
      | _ => false
  | _ => false

theorem wfNamedDoc_iff (j : Val) :
    wfNamedDoc j = true ↔ ∃ kvs fs n, j = Val.dict kvs ∧
      vlookup kvs "job" = some (Val.dict fs) ∧
      vlookup fs "name" = some (Val.str n) := by
  constructor
  · intro h
    cases j with
    | str s => simp [wfNamedDoc] at h
    | int n => simp [wfNamedDoc] at h
    | null => simp [wfNamedDoc] at h
    | list xs => simp [wfNamedDoc] at h
    | dict kvs =>
        rcases hJ : vlookup kvs "job" with _ | v
        · simp [wfNamedDoc, hJ] at h
        · cases v with
          | dict fs =>
              rcases hN : vlookup fs "name" with _ | w
              · simp [wfNamedDoc, hJ, hN] at h
              · cases w with
                | str n => exact ⟨kvs, fs, n, rfl, hJ, hN⟩
                | int m => simp [wfNamedDoc, hJ, hN] at h
                | null => simp [wfNamedDoc, hJ, hN] at h
                | list xs => simp [wfNamedDoc, hJ, hN] at h
                | dict d => simp [wfNamedDoc, hJ, hN] at h
          | str s => simp [wfNamedDoc, hJ] at h
          | int m => simp [wfNamedDoc, hJ] at h
          | null => simp [wfNamedDoc, hJ] at h
          | list xs => simp [wfNamedDoc, hJ] at h
  · rintro ⟨kvs, fs, n, rfl, hJ, hN⟩
    simp [wfNamedDoc, hJ, hN]

theorem fileNames_wf (f : List Val) (h : ∀ j ∈ f, wfNamedDoc j) :
    fileNames f = .ok (f.filterMap docName) := by
  induction f with
  | nil => simp [fileNames]
  | cons j js ih =>
      obtain ⟨kvs, fs, n, rfl, hJ, hN⟩ :=
        (wfNamedDoc_iff j).mp (h j (List.mem_cons_self j js))
      have ihs := ih (fun q hq => h q (List.mem_cons_of_mem _ hq))
      simp [fileNames, getItem, hJ, hN, hashable, ihs, List.filterMap_cons,
        docName]

theorem getItem_ne_attr (v : Val) (k : String) :
    getItem v k ≠ .error .attributeError := by
  cases v with
  | dict kvs =>
      simp only [getItem]
      split <;> simp
  | str s => simp [getItem]
  | int n => simp [getItem]
  | null => simp [getItem]
  | list xs => simp [getItem]

theorem fileNames_ne_attr : ∀ f, fileNames f ≠ .error .attributeError
  | [] => by simp [fileNames]
  | j :: js => by
      simp only [fileNames]
      cases hJ : getItem j "job" with
      | error e =>
          simp only [error_bind]
          intro hc
          injection hc with h
          subst h
          exact getItem_ne_attr j "job" hJ
      | ok a =>
          simp only [ok_bind]
          cases hN : getItem a "name" with
          | error e =>
              simp only [error_bind]
              intro hc
              injection hc with h
              subst h
              exact getItem_ne_attr a "name" hN
          | ok n =>
              simp only [ok_bind]
              by_cases hh : hashable n
              · simp only [hh, if_true]
                cases hR : fileNames js with
                | error e =>
                    simp only [error_bind]
                    intro hc
                    injection hc with h
                    subst h
                    exact fileNames_ne_attr js hR
                | ok rest => simp
              · simp [hh]

/-- The name set a file contributes inside `check_duplicated_jobs`: the set
of extracted names when the extraction succeeds, empty when the file is
skipped. -/
def fileOkSet (f : List Val) : Finset Val :=
  match fileNames f with
  | .ok l => l.toFinset
  | _ => ∅

theorem dupJobsGo_fatal (files : List (List Val)) (seen dup : Finset Val)
    (hf : ∃ f ∈ files, fileNames f = .error .typeError) :
    dupJobsGo files seen dup = .error .typeError := by
  induction files generalizing seen dup with
  | nil => simp at hf
  | cons f fs ih =>
      rcases hf with ⟨g, hg, hge⟩
      rcases List.mem_cons.mp hg with rfl | hgs
      · simp [dupJobsGo, hge]
      · cases hF : fileNames f with
        | error e =>
            cases e with
            | keyError => simpa [dupJobsGo, hF] using ih _ _ ⟨g, hgs, hge⟩
            | typeError => simp [dupJobsGo, hF]
            | attributeError => exact absurd hF (fileNames_ne_attr f)
        | ok names => simpa [dupJobsGo, hF] using ih _ _ ⟨g, hgs, hge⟩

theorem dupJobsGo_char (files : List (List Val)) (seen dup : Finset Val)
    (hnf : ∀ f ∈ files, fileNames f ≠ .error .typeError) :
    ∃ D, dupJobsGo files seen dup = .ok D ∧
      ∀ n, n ∈ D ↔ n ∈ dup ∨
        (n ∈ seen ∧ 1 ≤ files.countP (fun f => decide (n ∈ fileOkSet f))) ∨
        2 ≤ files.countP (fun f => decide (n ∈ fileOkSet f)) := by
  induction files generalizing seen dup with
  | nil => exact ⟨dup, rfl, by simp⟩
  | cons f fs ih =>
      have hfs : ∀ g ∈ fs, fileNames g ≠ .error .typeError :=
        fun g hg => hnf g (List.mem_cons_of_mem _ hg)
      cases hF : fileNames f with
      | error e =>
          cases e with
          | keyError =>
              obtain ⟨D, hD, hchar⟩ := ih seen dup hfs
              refine ⟨D, by simp [dupJobsGo, hF, hD], ?_⟩
              intro n
              rw [hchar n]
              have hempty : fileOkSet f = ∅ := by simp [fileOkSet, hF]
              simp only [List.countP_cons, hempty]
              simp
          | typeError => exact absurd hF (hnf f (List.mem_cons_self f fs))
          | attributeError => exact absurd hF (fileNames_ne_attr f)
      | ok names =>
          obtain ⟨D, hD, hchar⟩ :=
            ih (seen ∪ names.toFinset) (dup ∪ (names.toFinset ∩ seen)) hfs
          refine ⟨D, by simp [dupJobsGo, hF, hD], ?_⟩
          intro n
          rw [hchar n]
          have hok : fileOkSet f = names.toFinset := by simp [fileOkSet, hF]
          simp only [List.countP_cons, hok]
          by_cases hn : n ∈ names.toFinset
          · have hd : decide (n ∈ names.toFinset) = true := by simp [hn]
            have e1 : 1 ≤ fs.countP (fun f => decide (n ∈ fileOkSet f)) + 1 := by
              omega
            have e2 : 2 ≤ fs.countP (fun f => decide (n ∈ fileOkSet f)) + 1 ↔
                1 ≤ fs.countP (fun f => decide (n ∈ fileOkSet f)) := by omega
            simp only [hd, if_true, Finset.mem_union, Finset.mem_inter, e2]
            tauto
          · have hd : decide (n ∈ names.toFinset) = false := by simp [hn]
            simp only [hd, if_false, Nat.add_zero, Finset.mem_union,
              Finset.mem_inter]
            tauto

theorem fileOkSet_wf (f : List Val) (h : ∀ j ∈ f, wfNamedDoc j) :
    fileOkSet f = fileNameSet f := by
  simp [fileOkSet, fileNames_wf f h, fileNameSet]

/-- C2.  The empty input yields the empty set (not an error), and for every
input whose job documents all carry resolvable string names, a name belongs
to the returned set exactly when it occurs in the per-file name sets of at
least two distinct files; a name repeated within a single file counts only
once for that file. -/
theorem check_duplicated_jobs_spec :
    check_duplicated_jobs [] = .ok ∅ ∧
    ∀ files, (∀ f ∈ files, ∀ j ∈ f, wfNamedDoc j) →
      ∃ D, check_duplicated_jobs files = .ok D ∧
        ∀ n, n ∈ D ↔ 2 ≤ files.countP (fun f => decide (n ∈ fileNameSet f)) := by
  refine ⟨rfl, ?_⟩
  intro files hwf
  have hnf : ∀ f ∈ files, fileNames f ≠ .error .typeError := by
    intro f hf
    rw [fileNames_wf f (hwf f hf)]
    simp
  obtain ⟨D, hD, hchar⟩ := dupJobsGo_char files ∅ ∅ hnf
  refine ⟨D, hD, ?_⟩
  intro n
  rw [hchar n]
  have hcnt : files.countP (fun f => decide (n ∈ fileOkSet f)) =
      files.countP (fun f => decide (n ∈ fileNameSet f)) := by
    apply List.countP_congr
    intro f hf
    rw [fileOkSet_wf f (hwf f hf)]
  simp [hcnt]

/-- A job document with the given name, used in concrete instances. -/
def jobDoc (n : String) : Val := Val.dict [("job", Val.dict [("name", Val.str n)])]

/-- Witness for C2: the repository test input, two files declaring the same
three names; every name sits in two per-file sets. -/
theorem check_duplicated_jobs_spec_witness :
    ∃ D, check_duplicated_jobs
        [[jobDoc "job1", jobDoc "job2", jobDoc "job3"],
         [jobDoc "job1", jobDoc "job2", jobDoc "job3"]] = .ok D ∧
      ∀ n, n ∈ D ↔ 2 ≤
        [[jobDoc "job1", jobDoc "job2", jobDoc "job3"],
         [jobDoc "job1", jobDoc "job2", jobDoc "job3"]].countP
          (fun f => decide (n ∈ fileNameSet f)) :=
  check_duplicated_jobs_spec.2 _ (by decide)

/-- C3 counterexample: in a file holding a named job and a nameless job, the
whole file is dropped, so the name declared by the other document of that
file is not counted even though a second file also declares it; the claim
would require the result to contain that name. -/
theorem check_duplicated_jobs_drops_whole_file :
    check_duplicated_jobs
        [[jobDoc "a", Val.dict [("job", Val.dict [])]], [jobDoc "a"]] = .ok ∅ ∧
    Val.str "a" ∈ fileNameSet [jobDoc "a", Val.dict [("job", Val.dict [])]] ∧
    Val.str "a" ∈ fileNameSet [jobDoc "a"] ∧
    (Except.ok (∅ : Finset Val) : Except PyErr (Finset Val)) ≠
      .ok {Val.str "a"} := by
  refine ⟨by decide, by decide, by decide, by decide⟩

theorem fileNames_keyError_of_nameless (f1 f2 : List Val)
    (kvs fs : List (String × Val)) (hjob : vlookup kvs "job" = some (Val.dict fs))
    (hname : vlookup fs "name" = none) (hwf : ∀ j ∈ f1, wfNamedDoc j) :
    fileNames (f1 ++ Val.dict kvs :: f2) = .error .keyError := by
  induction f1 with
  | nil => simp [fileNames, getItem, hjob, hname]
  | cons j js ih =>
      obtain ⟨kvs1, fs1, n1, rfl, hJ, hN⟩ :=
        (wfNamedDoc_iff j).mp (hwf j (List.mem_cons_self j js))
      have ihs := ih (fun q hq => hwf q (List.mem_cons_of_mem _ hq))
      simp [fileNames, getItem, hJ, hN, hashable, ihs]

theorem dupJobsGo_skip (pre post : List (List Val)) (f : List Val)
    (hf : fileNames f = .error .keyError) (seen dup : Finset Val) :
    dupJobsGo (pre ++ f :: post) seen dup = dupJobsGo (pre ++ post) seen dup := by
  induction pre generalizing seen dup with
  | nil => simp [dupJobsGo, hf]
  | cons p ps ih =>
      cases hP : fileNames p with
      | error e =>
          cases e <;> simp [dupJobsGo, hP, ih]
      | ok names => simp [dupJobsGo, hP, ih]

/-- C3 amended.  When some file's job list contains a document lacking a
resolvable name (after any well-formed documents of that file), the check
does not crash, but the ENTIRE list of that file is skipped: the result is
the one computed from the remaining files alone, so the other documents of
the same file are NOT counted toward the duplicate analysis. -/
theorem check_duplicated_jobs_nameless_file (pre post : List (List Val))
    (f1 f2 : List Val) (kvs fs : List (String × Val))
    (hjob : vlookup kvs "job" = some (Val.dict fs))
    (hname : vlookup fs "name" = none) (hwf : ∀ j ∈ f1, wfNamedDoc j) :
    check_duplicated_jobs (pre ++ (f1 ++ Val.dict kvs :: f2) :: post) =
      check_duplicated_jobs (pre ++ post) := by
  unfold check_duplicated_jobs
  exact dupJobsGo_skip pre post _
    (fileNames_keyError_of_nameless f1 f2 kvs fs hjob hname hwf) ∅ ∅

/-- Witness for the amended C3: the file mixing a named and a nameless job is
skipped whole; the result equals the one for the other file alone. -/
theorem check_duplicated_jobs_nameless_file_witness :
    check_duplicated_jobs
        ([] ++ ([jobDoc "a"] ++ Val.dict [("job", Val.dict [])] :: []) ::
          [[jobDoc "a"]]) =
      check_duplicated_jobs ([] ++ [[jobDoc "a"]]) :=
  check_duplicated_jobs_nameless_file [] [[jobDoc "a"]] [jobDoc "a"] []
    [("job", Val.dict [])] [] (by decide) (by decide) (by decide)

/-- C8.  The duplicated-name result depends only on the collection of
per-file entries, not on their order: permuting the input files leaves the
outcome unchanged (including the error outcome on malformed input). -/
theorem check_duplicated_jobs_perm (files1 files2 : List (List Val))
    (hp : files1.Perm files2) :
    check_duplicated_jobs files1 = check_duplicated_jobs files2 := by
  by_cases hf : ∃ f ∈ files1, fileNames f = .error .typeError
  · have hf2 : ∃ f ∈ files2, fileNames f = .error .typeError := by
      rcases hf with ⟨f, hm, he⟩
      exact ⟨f, hp.mem_iff.mp hm, he⟩
    rw [check_duplicated_jobs, check_duplicated_jobs,
      dupJobsGo_fatal _ _ _ hf, dupJobsGo_fatal _ _ _ hf2]
  · push_neg at hf
    have hf2 : ∀ f ∈ files2, fileNames f ≠ .error .typeError :=
      fun f hm => hf f (hp.mem_iff.mpr hm)
    obtain ⟨D1, h1, c1⟩ := dupJobsGo_char files1 ∅ ∅ hf
    obtain ⟨D2, h2, c2⟩ := dupJobsGo_char files2 ∅ ∅ hf2
    rw [check_duplicated_jobs, check_duplicated_jobs, h1, h2]
    have : D1 = D2 := by
      ext n
      rw [c1 n, c2 n, hp.countP_eq]
    rw [this]

/-- Witness for C8: swapping two concrete files does not change the result. -/
theorem check_duplicated_jobs_perm_witness :
    check_duplicated_jobs [[jobDoc "a"], [jobDoc "b", jobDoc "a"]] =
      check_duplicated_jobs [[jobDoc "b", jobDoc "a"], [jobDoc "a"]] :=
  check_duplicated_jobs_perm _ _ (by decide)

/-! ## Specification-side descriptions and well-formedness for the dangling
node-set checker -/

/-- Whether a value is a plain string. -/
def isStrB : Val → Bool
  | .str _ => true
  | _ => false

theorem hashable_of_isStrB (x : Val) (h : isStrB x = true) : hashable x = true := by
  cases x <;> simp [isStrB, hashable] at *

/-- The known names contributed by one node entry of a declared node-set:
its string name, or every element of its list name (flattened one level). -/
def nodeNames (nd : Val) : List Val :=
  match nd with
  | .dict nkvs =>
      match vlookup nkvs "name" with
      | some (.str s) => [Val.str s]
      | some (.list xs) => xs
      | _ => []
  | _ => []

/-- A node entry whose `name` is a string or a list of strings. -/
def wfNode (nd : Val) : Bool :=
  match nd with
  | .dict nkvs =>
      match vlookup nkvs "name" with
      | some (.str _) => true
      | some (.list xs) => xs.all isStrB
      | _ => false
  | _ => false

/-- The known names contributed by one declared node-set: its own name plus
every nested node name. -/
def declNames (ns : Val) : List Val :=
  match ns with
  | .dict kvs =>
      match vlookup kvs "nodeset" with
      | some (.dict fs) =>
          (match vlookup fs "name" with
           | some v => [v]
           | none => []) ++
          (match vlookup fs "nodes" with
           | some (.list nds) => nds.flatMap nodeNames
           | _ => [])
      | _ => []
  | _ => []

/-- The known node-set name set, following the specification. -/
def specKnown (nodesets : List Val) : Finset Val :=
  (nodesets.flatMap declNames).toFinset

/-- A declared node-set of the documented shape: a mapping at `nodeset` with
a string `name` and, optionally, a `nodes` list of well-formed node
entries. -/
def wfNodesetDecl (ns : Val) : Bool :=
  match ns with
  | .dict kvs =>
      match vlookup kvs "nodeset" with
      | some (.dict fs) =>
          (match vlookup fs "name" with
           | some (.str _) => true
           | _ => false) &&
          (match vlookup fs "nodes" with
           | none => true
           | some (.list nds) => nds.all wfNode
           | _ => false)
      | _ => false
  | _ => false

/-- The name carried by one element of a job node-set reference list. -/
def elemRefNames (el : Val) : List Val :=
  match el with
  | .dict ekvs =>
      match vlookup ekvs "name" with
      | some v => [v]
      | none => []
  | _ => []

/-- The node-set names referenced by one job: a string nodeset is a single
reference, an object nodeset contributes each element of its `nodes` list,
an absent nodeset contributes nothing. -/
def jobRefNames (j : Val) : List Val :=
  match j with
  | .dict kvs =>
      match vlookup kvs "job" with
      | some (.dict fs) =>
          match vlookup fs "nodeset" with
          | some (.str s) => [Val.str s]
          | some (.dict nfs) =>
              match vlookup nfs "nodes" with
              | some (.list els) => els.flatMap elemRefNames
              | _ => []
          | _ => []
      | _ => []
  | _ => []

/-- The deduplicated set of node-set names referenced by some job. -/
def specRefs (jobs : List Val) : Finset Val := (jobs.flatMap jobRefNames).toFinset

/-- A reference list element that is a mapping with a string name. -/
def wfRefElem (el : Val) : Bool :=
  match el with
  | .dict ekvs =>
      match vlookup ekvs "name" with
      | some (.str _) => true
      | _ => false
  | _ => false

/-- A job document of the documented shape for the node-set checker: the
`nodeset` attribute is absent, a string, or a mapping with a `nodes` list of
well-formed reference elements. -/
def wfNodesetJob (j : Val) : Bool :=
  match j with
  | .dict kvs =>
      match vlookup kvs "job" with
      | some (.dict fs) =>
          match vlookup fs "nodeset" with
          | none => true
          | some (.str _) => true
          | some (.dict nfs) =>
              match vlookup nfs "nodes" with
              | some (.list els) => els.all wfRefElem
              | _ => false
          | _ => false
      | _ => false
  | _ => false

theorem foldlM_setAdd (xs : List Val) (s : Finset Val)
    (h : ∀ x ∈ xs, hashable x = true) :
    xs.foldlM setAdd s = .ok (s ∪ xs.toFinset) := by
  induction xs generalizing s with
  | nil =>
      simp only [List.foldlM_nil, List.toFinset_nil, Finset.union_empty]
      rfl
  | cons x xs ih =>
      have hx := h x (List.mem_cons_self x xs)
      have hset : insert x s ∪ xs.toFinset = s ∪ (x :: xs).toFinset := by
        ext a
        simp only [List.toFinset_cons, Finset.mem_union, Finset.mem_insert]
        tauto
      rw [List.foldlM_cons]
      simp only [setAdd, hx, if_true, ok_bind]
      rw [ih _ (fun y hy => h y (List.mem_cons_of_mem _ hy)), hset]

theorem addKnownNode_wf (s : Finset Val) (nd : Val) (h : wfNode nd = true) :
    addKnownNode s nd = .ok (s ∪ (nodeNames nd).toFinset) := by
  cases nd with
  | dict nkvs =>
      rcases hN : vlookup nkvs "name" with _ | v
      · simp [wfNode, hN] at h
      · cases v with
        | str nm =>
            simp only [addKnownNode, getItem, hN, ok_bind, setAdd, hashable,
              if_true, nodeNames]
            congr 1
            ext a
            simp only [List.toFinset_cons, List.toFinset_nil, Finset.mem_union,
              Finset.mem_insert, Finset.not_mem_empty, or_false]
            tauto
        | list xs =>
            simp only [wfNode, hN] at h
            simp only [addKnownNode, getItem, hN, ok_bind, nodeNames]
            exact foldlM_setAdd xs s
              (fun y hy => hashable_of_isStrB y ((List.all_eq_true.mp h) y hy))
        | int m => simp [wfNode, hN] at h
        | null => simp [wfNode, hN] at h
        | dict d => simp [wfNode, hN] at h
  | str s0 => simp [wfNode] at h
  | int n => simp [wfNode] at h
  | null => simp [wfNode] at h
  | list xs => simp [wfNode] at h

theorem foldlM_addKnownNode (nds : List Val) (s : Finset Val)
    (h : ∀ nd ∈ nds, wfNode nd = true) :
    nds.foldlM addKnownNode s = .ok (s ∪ (nds.flatMap nodeNames).toFinset) := by
  induction nds generalizing s with
  | nil =>
      simp only [List.foldlM_nil, List.flatMap_nil, List.toFinset_nil,
        Finset.union_empty]
      rfl
  | cons nd nds ih =>
      rw [List.foldlM_cons, addKnownNode_wf s nd (h nd (List.mem_cons_self nd nds)),
        ok_bind, ih _ (fun y hy => h y (List.mem_cons_of_mem _ hy))]
      congr 1
      ext a
      simp only [List.flatMap_cons, List.toFinset_append, Finset.mem_union]
      tauto

theorem buildKnown_wf (l : List Val) (s : Finset Val)
    (h : ∀ ns ∈ l, wfNodesetDecl ns = true) :
    buildKnown l s = .ok (s ∪ (l.flatMap declNames).toFinset) := by
  induction l generalizing s with
  | nil => simp [buildKnown]
  | cons ns rest ih =>
      have hns := h ns (List.mem_cons_self ns rest)
      have hrest := fun y hy => h y (List.mem_cons_of_mem _ hy)
      cases ns with
      | dict kvs =>
          rcases hI : vlookup kvs "nodeset" with _ | v
          · simp [wfNodesetDecl, hI] at hns
          · cases v with
            | dict fs =>
                simp only [wfNodesetDecl, hI, Bool.and_eq_true] at hns
                obtain ⟨hname, hnodes⟩ := hns
                rcases hN : vlookup fs "name" with _ | w
                · simp [hN] at hname
                · cases w with
                  | str nm =>
                      rcases hD : vlookup fs "nodes" with _ | nv
                      · rw [buildKnown]
                        simp only [getItem, hI, hN, hD, ok_bind, setAdd,
                          hashable, if_true]
                        rw [ih _ hrest]
                        congr 1
                        ext a
                        simp [declNames, hI, hN, hD]
                      · cases nv with
                        | list nds =>
                            simp only [hD] at hnodes
                            rw [buildKnown]
                            simp only [getItem, hI, hN, hD, ok_bind, setAdd,
                              hashable, if_true, pyIter]
                            rw [foldlM_addKnownNode nds _
                              (fun y hy => (List.all_eq_true.mp hnodes) y hy),
                              ok_bind, ih _ hrest]
                            congr 1
                            ext a
                            simp [declNames, hI, hN, hD]
                        | str s0 => simp [hD] at hnodes
                        | int m => simp [hD] at hnodes
                        | null => simp [hD] at hnodes
                        | dict d => simp [hD] at hnodes
                  | int m => simp [hN] at hname
                  | null => simp [hN] at hname
                  | list xs => simp [hN] at hname
                  | dict d => simp [hN] at hname
            | str s0 => simp [wfNodesetDecl, hI] at hns
            | int m => simp [wfNodesetDecl, hI] at hns
            | null => simp [wfNodesetDecl, hI] at hns
            | list xs => simp [wfNodesetDecl, hI] at hns
      | str s0 => simp [wfNodesetDecl] at hns
      | int n => simp [wfNodesetDecl] at hns
      | null => simp [wfNodesetDecl] at hns
      | list xs => simp [wfNodesetDecl] at hns

theorem wfRefElem_iff (el : Val) :
    wfRefElem el = true ↔ ∃ ekvs s, el = Val.dict ekvs ∧
      vlookup ekvs "name" = some (Val.str s) := by
  constructor
  · intro h
    cases el with
    | str s => simp [wfRefElem] at h
    | int n => simp [wfRefElem] at h
    | null => simp [wfRefElem] at h
    | list xs => simp [wfRefElem] at h
    | dict ekvs =>
        rcases hN : vlookup ekvs "name" with _ | w
        · simp [wfRefElem, hN] at h
        · cases w with
          | str s => exact ⟨ekvs, s, rfl, hN⟩
          | int m => simp [wfRefElem, hN] at h
          | null => simp [wfRefElem, hN] at h
          | list xs => simp [wfRefElem, hN] at h
          | dict d => simp [wfRefElem, hN] at h
  · rintro ⟨ekvs, s, rfl, hN⟩
    simp [wfRefElem, hN]

theorem foldlM_refStep (known : Finset Val) (jn : Val) (els : List Val)
    (acc : Finset Val) (h : ∀ el ∈ els, wfRefElem el = true) :
    els.foldlM (refStep known jn) acc =
      .ok (acc ∪ ((els.flatMap elemRefNames).toFinset \ known)) := by
  induction els generalizing acc with
  | nil =>
      simp only [List.foldlM_nil, List.flatMap_nil, List.toFinset_nil,
        Finset.empty_sdiff, Finset.union_empty]
      rfl
  | cons el els ih =>
      obtain ⟨ekvs, s, rfl, hN⟩ :=
        (wfRefElem_iff el).mp (h el (List.mem_cons_self el els))
      have hel : elemRefNames (Val.dict ekvs) = [Val.str s] := by
        simp [elemRefNames, hN]
      rw [List.foldlM_cons]
      simp only [refStep, getItem, hN, hashable, if_true, ok_bind]
      rw [ih _ (fun y hy => h y (List.mem_cons_of_mem _ hy))]
      congr 1
      ext a
      simp only [List.flatMap_cons, hel, List.toFinset_append,
        List.toFinset_cons, List.toFinset_nil, Finset.mem_union,
        Finset.mem_sdiff, Finset.mem_insert, Finset.not_mem_empty, or_false]
      by_cases hk : Val.str s ∈ known
      · simp only [hk, if_true]
        constructor
        · rintro (ha | ⟨hr, hnk⟩)
          · exact Or.inl ha
          · exact Or.inr ⟨Or.inr hr, hnk⟩
        · rintro (ha | ⟨rfl | hr, hnk⟩)
          · exact Or.inl ha
          · exact absurd hk hnk
          · exact Or.inr ⟨hr, hnk⟩
      · simp only [hk, if_false, Finset.mem_insert]
        constructor
        · rintro ((rfl | ha) | ⟨hr, hnk⟩)
          · exact Or.inr ⟨Or.inl rfl, hk⟩
          · exact Or.inl ha
          · exact Or.inr ⟨Or.inr hr, hnk⟩
        · rintro (ha | ⟨rfl | hr, hnk⟩)
          · exact Or.inl (Or.inr ha)
          · exact Or.inl (Or.inl rfl)
          · exact Or.inr ⟨hr, hnk⟩

theorem nodesetJobStep_wf (known acc : Finset Val) (j : Val)
    (h : wfNodesetJob j = true) :
    nodesetJobStep known acc j =
      .ok (acc ∪ ((jobRefNames j).toFinset \ known)) := by
  cases j with
  | str s => simp [wfNodesetJob] at h
  | int n => simp [wfNodesetJob] at h
  | null => simp [wfNodesetJob] at h
  | list xs => simp [wfNodesetJob] at h
  | dict kvs =>
      rcases hJ : vlookup kvs "job" with _ | v
      · simp [wfNodesetJob, hJ] at h
      · cases v with
        | dict fs =>
            rcases hN : vlookup fs "nodeset" with _ | w
            · simp only [nodesetJobStep, getItem, hJ, hN, ok_bind]
              simp [jobRefNames, hJ, hN]
            · cases w with
              | str s =>
                  simp only [nodesetJobStep, getItem, hJ, hN, ok_bind, pyIter,
                    pure_ok]
                  rw [foldlM_refStep known _ _ acc
                    (by intro el hel
                        simp only [List.mem_singleton] at hel
                        subst hel
                        simp [wfRefElem, vlookup])]
                  congr 1
                  simp [jobRefNames, hJ, hN, elemRefNames, vlookup]
              | dict nfs =>
                  simp only [wfNodesetJob, hJ, hN] at h
                  rcases hD : vlookup nfs "nodes" with _ | nv
                  · simp [hD] at h
                  · cases nv with
                    | list els =>
                        simp only [hD] at h
                        simp only [nodesetJobStep, getItem, hJ, hN, hD,
                          ok_bind, pyIter]
                        rw [foldlM_refStep known _ _ acc
                          (fun y hy => (List.all_eq_true.mp h) y hy)]
                        congr 2
                        simp [jobRefNames, hJ, hN, hD]
                    | str s0 => simp [hD] at h
                    | int m => simp [hD] at h
                    | null => simp [hD] at h
                    | dict d => simp [hD] at h
              | int m => simp [wfNodesetJob, hJ, hN] at h
              | null => simp [wfNodesetJob, hJ, hN] at h
              | list xs => simp [wfNodesetJob, hJ, hN] at h
        | str s => simp [wfNodesetJob, hJ] at h
        | int m => simp [wfNodesetJob, hJ] at h
        | null => simp [wfNodesetJob, hJ] at h
        | list xs => simp [wfNodesetJob, hJ] at h

theorem foldlM_nodesetJobStep (known : Finset Val) (jobs : List Val)
    (acc : Finset Val) (h : ∀ j ∈ jobs, wfNodesetJob j = true) :
    jobs.foldlM (nodesetJobStep known) acc =
      .ok (acc ∪ (specRefs jobs \ known)) := by
  induction jobs generalizing acc with
  | nil =>
      simp only [List.foldlM_nil, specRefs, List.flatMap_nil, List.toFinset_nil,
        Finset.empty_sdiff, Finset.union_empty]
      rfl
  | cons j js ih =>
      rw [List.foldlM_cons,
        nodesetJobStep_wf known acc j (h j (List.mem_cons_self j js)), ok_bind,
        ih _ (fun y hy => h y (List.mem_cons_of_mem _ hy))]
      congr 1
      ext a
      simp only [specRefs, List.flatMap_cons, List.toFinset_append,
        Finset.mem_union, Finset.mem_sdiff]
      tauto

/-- C4.  For declared node-sets and jobs of the documented shapes, the
checker returns exactly the deduplicated set of node-set names referenced by
some job that are missing from the known set built from every declared
node-set's own name plus every nested node name (list-valued nested names
flattened one level). -/
theorem check_inexistent_nodesets_spec (nodesets jobs : List Val)
    (hns : ∀ ns ∈ nodesets, wfNodesetDecl ns = true)
    (hj : ∀ j ∈ jobs, wfNodesetJob j = true) :
    check_inexistent_nodesets nodesets jobs =
      .ok (specRefs jobs \ specKnown nodesets) := by
  unfold check_inexistent_nodesets
  rw [buildKnown_wf nodesets ∅ hns]
  simp only [ok_bind]
  rw [foldlM_nodesetJobStep _ jobs ∅ hj]
  simp [specKnown]

/-- Witness for C4: the node-set example of the specification, with known
names ns1, ns2, n1 and references ns1, n1, ns3, yields exactly ns3. -/
theorem check_inexistent_nodesets_spec_witness :
    check_inexistent_nodesets
        [Val.dict [("nodeset", Val.dict [("name", Val.str "ns1")])],
         Val.dict [("nodeset", Val.dict [("name", Val.str "ns2"),
           ("nodes", Val.list [Val.dict [("name", Val.str "n1")]])])]]
        [Val.dict [("job", Val.dict [("nodeset", Val.str "ns1")])],
         Val.dict [("job", Val.dict [("nodeset", Val.str "n1")])],
         Val.dict [("job", Val.dict [("nodeset", Val.str "ns3")])]] =
      .ok (specRefs
          [Val.dict [("job", Val.dict [("nodeset", Val.str "ns1")])],
           Val.dict [("job", Val.dict [("nodeset", Val.str "n1")])],
           Val.dict [("job", Val.dict [("nodeset", Val.str "ns3")])]] \
        specKnown
          [Val.dict [("nodeset", Val.dict [("name", Val.str "ns1")])],
           Val.dict [("nodeset", Val.dict [("name", Val.str "ns2"),
             ("nodes", Val.list [Val.dict [("name", Val.str "n1")]])])]]) :=
  check_inexistent_nodesets_spec _ _ (by decide) (by decide)

/-- C5 counterexample: a job whose reference list holds a mapping without a
usable name makes the checker raise `KeyError` instead of skipping that
element. -/
theorem check_inexistent_nodesets_raises :
    check_inexistent_nodesets []
        [Val.dict [("job", Val.dict [("nodeset",
          Val.dict [("nodes", Val.list [Val.dict []])])])]] =
      .error .keyError := by
  decide

theorem nodesetJobStep_nameless (known acc : Finset Val)
    (ekvs : List (String × Val)) (hname : vlookup ekvs "name" = none)
    (els : List Val) :
    nodesetJobStep known acc (Val.dict [("job", Val.dict [("nodeset",
        Val.dict [("nodes", Val.list (Val.dict ekvs :: els))])])]) =
      .error .keyError := by
  simp [nodesetJobStep, getItem, vlookup, pyIter, List.foldlM_cons, refStep,
    hname]

/-- C5 amended.  A reference list element that is a mapping lacking a usable
`name` is not skipped: after any well-formed declared node-sets and earlier
well-formed jobs are processed, the checker raises `KeyError` out of the
check (only shapes whose lookup raises `TypeError`, such as bare-string
elements of a single-mapping `nodes` value, reach the tolerant fallback). -/
theorem check_inexistent_nodesets_nameless (nodesets : List Val)
    (hns : ∀ ns ∈ nodesets, wfNodesetDecl ns = true)
    (pre : List Val) (hpre : ∀ j ∈ pre, wfNodesetJob j = true)
    (ekvs : List (String × Val)) (hname : vlookup ekvs "name" = none)
    (els rest : List Val) :
    check_inexistent_nodesets nodesets
        (pre ++ Val.dict [("job", Val.dict [("nodeset",
          Val.dict [("nodes", Val.list (Val.dict ekvs :: els))])])] :: rest) =
      .error .keyError := by
  unfold check_inexistent_nodesets
  rw [buildKnown_wf nodesets ∅ hns]
  simp only [ok_bind]
  rw [List.foldlM_append, foldlM_nodesetJobStep _ pre ∅ hpre, ok_bind,
    List.foldlM_cons, nodesetJobStep_nameless _ _ ekvs hname els]
  rfl

/-- Witness for the amended C5: the concrete nameless reference element makes
the check raise `KeyError`. -/
theorem check_inexistent_nodesets_nameless_witness :
    check_inexistent_nodesets []
        ([] ++ Val.dict [("job", Val.dict [("nodeset",
          Val.dict [("nodes", Val.list (Val.dict [] :: []))])])] :: []) =
      .error .keyError :=
  check_inexistent_nodesets_nameless [] (by decide) [] (by decide) []
    (by decide) [] []

/-! ## Specification-side descriptions and well-formedness for the duplicate
semaphore checker -/

/-- The string-or-list normalization of a `semaphores` attribute value:
absent gives nothing, a string gives itself, a list gives its elements. -/
def semsListOf : Option Val → List Val
  | some (.str s) => [Val.str s]
  | some (.list xs) => xs
  | _ => []

/-- The job-level semaphores of one job document. -/
def jobLevelSems (j : Val) : List Val :=
  match j with
  | .dict kvs =>
      match vlookup kvs "job" with
      | some (.dict fs) => semsListOf (vlookup fs "semaphores")
      | _ => []
  | _ => []

/-- The semaphores of one run-phase entry: a bare string entry carries
none. -/
def runEntrySems (e : Val) : List Val :=
  match e with
  | .dict ekvs => semsListOf (vlookup ekvs "semaphores")
  | _ => []

/-- The run-phase semaphores of one job document: a bare-string `run`
contributes nothing, a single mapping is one entry, a list contributes the
semaphores of each entry. -/
def runLevelSems (j : Val) : List Val :=
  match j with
  | .dict kvs =>
      match vlookup kvs "job" with
      | some (.dict fs) =>
          match vlookup fs "run" with
          | some (.dict rkvs) => runEntrySems (Val.dict rkvs)
          | some (.list es) => es.flatMap runEntrySems
          | _ => []
      | _ => []
  | _ => []

/-- The resolvable string name of a job document for the semaphore
checker. -/
def semDocName (j : Val) : Option String :=
  match j with
  | .dict kvs =>
      match vlookup kvs "job" with
      | some (.dict fs) =>
          match vlookup fs "name" with
          | some (.str n) => some n
          | _ => none
      | _ => none
  | _ => none

/-- The names of the documents, in order, repetitions preserved. -/
def semNames (jobs : List Val) : List String := jobs.filterMap semDocName

/-- The concatenation of the per-document extractions `g` over every
document carrying the name `n` (collection is keyed by job name, so
same-named documents merge). -/
def mergedSems (g : Val → List Val) (jobs : List Val) (n : String) : List Val :=
  (jobs.filter (fun j => decide (semDocName j = some n))).flatMap g

/-- A well-formed `semaphores` attribute value: absent, a string, or a list
of strings. -/
def wfSems : Option Val → Bool
  | none => true
  | some (.str _) => true
  | some (.list xs) => xs.all isStrB
  | some _ => false

/-- A well-formed run entry: a bare string or a mapping with well-formed
semaphores. -/
def wfRunEntry (e : Val) : Bool :=
  match e with
  | .str _ => true
  | .dict ekvs => wfSems (vlookup ekvs "semaphores")
  | _ => false

/-- A well-formed `run` attribute value: absent, a bare string, a single
mapping entry, or a list of well-formed entries. -/
def wfRunVal : Option Val → Bool
  | none => true
  | some (.str _) => true
  | some (.dict rkvs) => wfSems (vlookup rkvs "semaphores")
  | some (.list es) => es.all wfRunEntry
  | some _ => false

/-- A job document of the documented shape for the semaphore checker. -/
def wfSemJob (j : Val) : Bool :=
  match j with
  | .dict kvs =>
      match vlookup kvs "job" with
      | some (.dict fs) =>
          (match vlookup fs "name" with
           | some (.str _) => true
           | _ => false) &&
          wfSems (vlookup fs "semaphores") && wfRunVal (vlookup fs "run")
      | _ => false
  | _ => false

/-- The pure effect of `dict.setdefault(k, [])` on the association list. -/
def setdefaultPure (m : SemMap) (k : Val) : SemMap :=
  match mlookup m k with
  | some _ => m
  | none => m ++ [(k, [])]

theorem mapSetdefault_str (m : SemMap) (n : String) :
    mapSetdefault m (Val.str n) = .ok (setdefaultPure m (Val.str n)) := by
  simp [mapSetdefault, hashable, setdefaultPure]

theorem mlookup_isSome (m : SemMap) (k : Val) :
    (mlookup m k).isSome = true ↔ k ∈ m.map Prod.fst := by
  induction m with
  | nil => simp [mlookup]
  | cons p m ih =>
      by_cases hk : p.1 = k
      · simp [mlookup, hk]
      · simp [mlookup, hk, ih, Ne.symm hk]

theorem mlookup_eq_of_mem_nodup (m : SemMap) (hm : (m.map Prod.fst).Nodup)
    (k : Val) (l : List Val) (hmem : (k, l) ∈ m) : mlookup m k = some l := by
  induction m with
  | nil => simp at hmem
  | cons p m ih =>
      rcases List.mem_cons.mp hmem with rfl | hmem2
      · simp [mlookup]
      · have hk : p.1 ≠ k := by
          intro hc
          have : k ∈ m.map Prod.fst :=
            List.mem_map.mpr ⟨(k, l), hmem2, rfl⟩
          rw [List.map_cons, List.nodup_cons, hc] at hm
          exact hm.1 this
        simp only [mlookup, hk, if_false]
        exact ih (by
          rw [List.map_cons, List.nodup_cons] at hm
          exact hm.2) hmem2

theorem mem_of_mlookup (m : SemMap) (k : Val) (l : List Val)
    (h : mlookup m k = some l) : (k, l) ∈ m := by
  induction m with
  | nil => simp [mlookup] at h
  | cons p m ih =>
      by_cases hk : p.1 = k
      · simp only [mlookup, hk, if_true, Option.some.injEq] at h
        subst h
        exact List.mem_cons.mpr (Or.inl (by rw [← hk]))
      · simp only [mlookup, hk, if_false] at h
        exact List.mem_cons.mpr (Or.inr (ih h))

theorem mlookup_append_one (m : SemMap) (k : Val) (xs : List Val) (q : Val) :
    mlookup (m ++ [(k, xs)]) q =
      match mlookup m q with
      | some l => some l
      | none => if k = q then some xs else none := by
  induction m with
  | nil => simp [mlookup]
  | cons p m ih =>
      by_cases hk : p.1 = q
      · simp [mlookup, hk]
      · simp [mlookup, hk, ih]

theorem mlookup_mappend (m : SemMap) (k : Val) (xs : List Val) (q : Val) :
    mlookup (mappend m k xs) q =
      match mlookup m q with
      | some l => some (if q = k then l ++ xs else l)
      | none => none := by
  induction m with
  | nil => simp [mlookup, mappend]
  | cons p m ih =>
      simp only [mappend, List.map_cons] at ih ⊢
      by_cases hpk : p.1 = k
      · rw [if_pos hpk]
        by_cases hpq : p.1 = q
        · have hqk : q = k := by rw [← hpq, hpk]
          simp [mlookup, hpq, hqk]
        · simp [mlookup, hpq, ih]
      · rw [if_neg hpk]
        by_cases hpq : p.1 = q
        · have hqk : ¬q = k := by rw [← hpq]; exact hpk
          simp [mlookup, hpq, hqk]
        · simp [mlookup, hpq, ih]

theorem mappend_keys (m : SemMap) (k : Val) (xs : List Val) :
    (mappend m k xs).map Prod.fst = m.map Prod.fst := by
  induction m with
  | nil => simp [mappend]
  | cons p m ih =>
      by_cases hpk : p.1 = k <;>
        simpa [mappend, hpk] using ih

theorem mlookup_setdefault (m : SemMap) (k q : Val) :
    mlookup (setdefaultPure m k) q =
      if q = k then some ((mlookup m k).getD []) else mlookup m q := by
  unfold setdefaultPure
  cases hm : mlookup m k with
  | some l =>
      by_cases hq : q = k
      · subst hq
        simp [hm]
      · simp [hq]
  | none =>
      rw [mlookup_append_one]
      by_cases hq : q = k
      · subst hq
        simp [hm]
      · cases hq2 : mlookup m q with
        | some l => simp [hq2, hq]
        | none =>
            have hkq : ¬k = q := fun hc => hq hc.symm
            simp [hq2, hkq, hq]

theorem setdefaultPure_keys (m : SemMap) (k : Val) :
    (setdefaultPure m k).map Prod.fst =
      if k ∈ m.map Prod.fst then m.map Prod.fst else m.map Prod.fst ++ [k] := by
  unfold setdefaultPure
  cases hm : mlookup m k with
  | some l =>
      have : k ∈ m.map Prod.fst := (mlookup_isSome m k).mp (by simp [hm])
      simp [this]
  | none =>
      have : k ∉ m.map Prod.fst := by
        intro hc
        have := (mlookup_isSome m k).mpr hc
        simp [hm] at this
      simp [this]

theorem wfSemJob_iff (j : Val) :
    wfSemJob j = true ↔ ∃ kvs fs n, j = Val.dict kvs ∧
      vlookup kvs "job" = some (Val.dict fs) ∧
      vlookup fs "name" = some (Val.str n) ∧
      wfSems (vlookup fs "semaphores") = true ∧
      wfRunVal (vlookup fs "run") = true := by
  constructor
  · intro h
    cases j with
    | str s => simp [wfSemJob] at h
    | int n => simp [wfSemJob] at h
    | null => simp [wfSemJob] at h
    | list xs => simp [wfSemJob] at h
    | dict kvs =>
        rcases hJ : vlookup kvs "job" with _ | v
        · simp [wfSemJob, hJ] at h
        · cases v with
          | dict fs =>
              simp only [wfSemJob, hJ, Bool.and_eq_true] at h
              obtain ⟨⟨h1, h2⟩, h3⟩ := h
              rcases hN : vlookup fs "name" with _ | w
              · simp [hN] at h1
              · cases w with
                | str n => exact ⟨kvs, fs, n, rfl, hJ, hN, h2, h3⟩
                | int m => simp [hN] at h1
                | null => simp [hN] at h1
                | list xs => simp [hN] at h1
                | dict d => simp [hN] at h1
          | str s => simp [wfSemJob, hJ] at h
          | int m => simp [wfSemJob, hJ] at h
          | null => simp [wfSemJob, hJ] at h
          | list xs => simp [wfSemJob, hJ] at h
  · rintro ⟨kvs, fs, n, rfl, hJ, hN, h2, h3⟩
    simp [wfSemJob, hJ, hN, h2, h3]

theorem semsToList_wf (v : Option Val) (h : wfSems v = true) :
    semsToList (v.getD (Val.list [])) = .ok (semsListOf v) := by
  cases v with
  | none => rfl
  | some w =>
      cases w with
      | str s => rfl
      | list xs => rfl
      | int m => simp [wfSems] at h
      | null => simp [wfSems] at h
      | dict d => simp [wfSems] at h

theorem runSemsOf_wf (es : List Val) (h : ∀ e ∈ es, wfRunEntry e = true) :
    runSemsOf es = .ok (es.flatMap runEntrySems) := by
  induction es with
  | nil => rfl
  | cons e es ih =>
      have he := h e (List.mem_cons_self e es)
      have ihs := ih (fun y hy => h y (List.mem_cons_of_mem _ hy))
      cases e with
      | str s => simpa [runSemsOf, runEntrySems] using ihs
      | dict ekvs =>
          simp only [runSemsOf, dictGet, ok_bind]
          rw [semsToList_wf _ (by simpa [wfRunEntry] using he), ok_bind, ihs]
          simp [runEntrySems, List.flatMap_cons]
      | int m => simp [wfRunEntry] at he
      | null => simp [wfRunEntry] at he
      | list xs => simp [wfRunEntry] at he

theorem mappend_nil (m : SemMap) (k : Val) : mappend m k [] = m := by
  induction m with
  | nil => rfl
  | cons p m _ =>
      by_cases hpk : p.1 = k <;> simp [mappend, hpk]

theorem processSemJob_eq (st : SemMap × SemMap) (kvs fs : List (String × Val))
    (n : String) (hJ : vlookup kvs "job" = some (Val.dict fs))
    (hname : vlookup fs "name" = some (Val.str n))
    (hsems : wfSems (vlookup fs "semaphores") = true)
    (hrun : wfRunVal (vlookup fs "run") = true) :
    processSemJob st (Val.dict kvs) =
      .ok (mappend (setdefaultPure st.1 (Val.str n)) (Val.str n)
             (jobLevelSems (Val.dict kvs)),
           mappend (setdefaultPure st.2 (Val.str n)) (Val.str n)
             (runLevelSems (Val.dict kvs))) := by
  have hjl : jobLevelSems (Val.dict kvs) = semsListOf (vlookup fs "semaphores") := by
    simp [jobLevelSems, hJ]
  simp only [processSemJob, pyContains, hJ, Option.isSome_some, ok_bind,
    if_true, getItem, dictGet, hname, Option.getD_some]
  rw [if_neg (by simp)]
  rw [mapSetdefault_str, ok_bind, mapSetdefault_str, ok_bind,
    semsToList_wf _ hsems, ok_bind, ← hjl]
  rcases hR : vlookup fs "run" with _ | w
  · simp only [hR, Option.getD_none, ok_bind]
    have hrl : runLevelSems (Val.dict kvs) = [] := by
      simp [runLevelSems, hJ, hR]
    simp [pyIter, runSemsOf, hrl, hR]
  · cases w with
    | str s =>
        have hrl : runLevelSems (Val.dict kvs) = [] := by
          simp [runLevelSems, hJ, hR]
        simp [hR, hrl, mappend_nil]
    | dict rkvs =>
        rw [hR] at hrun
        have hrl : runLevelSems (Val.dict kvs) = runEntrySems (Val.dict rkvs) := by
          simp [runLevelSems, hJ, hR]
        simp only [hR, Option.getD_some, ok_bind, pyIter]
        rw [runSemsOf_wf [Val.dict rkvs]
          (by intro e he
              simp only [List.mem_singleton] at he
              subst he
              simpa [wfRunEntry] using hrun), ok_bind]
        simp [hrl]
    | list es =>
        rw [hR] at hrun
        have hrl : runLevelSems (Val.dict kvs) = es.flatMap runEntrySems := by
          simp [runLevelSems, hJ, hR]
        simp only [hR, Option.getD_some, ok_bind, pyIter]
        rw [runSemsOf_wf es (fun y hy => (List.all_eq_true.mp hrun) y hy), ok_bind]
        simp [hrl]
    | int m => rw [hR] at hrun; simp [wfRunVal] at hrun
    | null => rw [hR] at hrun; simp [wfRunVal] at hrun

theorem semNames_append_one (processed : List Val) (j : Val) (n : String)
    (h : semDocName j = some n) :
    semNames (processed ++ [j]) = semNames processed ++ [n] := by
  simp [semNames, List.filterMap_append, h]

theorem mergedSems_append_one (g : Val → List Val) (processed : List Val)
    (j : Val) (q n : String) (h : semDocName j = some n) :
    mergedSems g (processed ++ [j]) q =
      mergedSems g processed q ++ (if n = q then g j else []) := by
  simp only [mergedSems, List.filter_append, List.flatMap_append]
  by_cases hq : n = q
  · subst hq
    simp [h]
  · simp [h, hq]

theorem mergedSems_nil_of_not_mem (g : Val → List Val) (processed : List Val)
    (q : String) (h : q ∉ semNames processed) : mergedSems g processed q = [] := by
  unfold mergedSems
  have : processed.filter (fun j => decide (semDocName j = some q)) = [] := by
    rw [List.filter_eq_nil_iff]
    intro j hj
    simp only [decide_eq_true_eq]
    intro hc
    exact h (List.mem_filterMap.mpr ⟨j, hj, hc⟩)
  rw [this, List.flatMap_nil]

theorem mlookup_update (m : SemMap) (processed : List Val) (g : Val → List Val)
    (hm : ∀ q : String, mlookup m (Val.str q) =
      if q ∈ semNames processed then some (mergedSems g processed q) else none)
    (j : Val) (n : String) (hname : semDocName j = some n) (q : String) :
    mlookup (mappend (setdefaultPure m (Val.str n)) (Val.str n) (g j))
        (Val.str q) =
      if q ∈ semNames (processed ++ [j])
      then some (mergedSems g (processed ++ [j]) q) else none := by
  rw [mlookup_mappend, mlookup_setdefault,
    semNames_append_one processed j n hname,
    mergedSems_append_one g processed j q n hname]
  by_cases hq : q = n
  · subst hq
    rw [if_pos rfl, hm q]
    by_cases hn : q ∈ semNames processed
    · simp [hn]
    · simp [hn, mergedSems_nil_of_not_mem g processed q hn]
  · have hv : ¬(Val.str q = Val.str n) := by
      simp [hq]
    rw [if_neg hv, hm q]
    have hmm : q ∈ semNames processed ++ [n] ↔ q ∈ semNames processed := by
      simp [List.mem_append, hq]
    by_cases hn : q ∈ semNames processed
    · have hnq : ¬(n = q) := fun hc => hq hc.symm
      simp [hn, hmm, hv, hnq]
    · simp [hn, hmm]

/-- The loop invariant of the collection phase of `check_duplicate_semaphore`
after processing the given documents: the two accumulators share the same
duplicate-free list of string keys, and each key holds the concatenation of
the job-level (resp. run-level) semaphore lists of every processed document
carrying that name. -/
def SemInv (processed : List Val) (st : SemMap × SemMap) : Prop :=
  st.1.map Prod.fst = st.2.map Prod.fst ∧
  (st.1.map Prod.fst).Nodup ∧
  (∀ k ∈ st.1.map Prod.fst, ∃ n : String, k = Val.str n) ∧
  (∀ n : String, mlookup st.1 (Val.str n) =
    if n ∈ semNames processed
    then some (mergedSems jobLevelSems processed n) else none) ∧
  (∀ n : String, mlookup st.2 (Val.str n) =
    if n ∈ semNames processed
    then some (mergedSems runLevelSems processed n) else none)

theorem SemInv_nil : SemInv [] ([], []) := by
  refine ⟨rfl, List.nodup_nil, ?_, ?_, ?_⟩
  · intro k hk
    simp at hk
  · intro n
    simp [mlookup, semNames]
  · intro n
    simp [mlookup, semNames]

theorem SemInv_step (processed : List Val) (st : SemMap × SemMap)
    (hinv : SemInv processed st) (j : Val) (n : String)
    (hname : semDocName j = some n) :
    SemInv (processed ++ [j])
      (mappend (setdefaultPure st.1 (Val.str n)) (Val.str n) (jobLevelSems j),
       mappend (setdefaultPure st.2 (Val.str n)) (Val.str n) (runLevelSems j)) := by
  obtain ⟨hkeys, hnodup, hstr, hm1, hm2⟩ := hinv
  have hsd : (setdefaultPure st.1 (Val.str n)).map Prod.fst =
      (setdefaultPure st.2 (Val.str n)).map Prod.fst := by
    rw [setdefaultPure_keys, setdefaultPure_keys, hkeys]
  refine ⟨?_, ?_, ?_, ?_, ?_⟩
  · rw [mappend_keys, mappend_keys, hsd]
  · rw [mappend_keys, setdefaultPure_keys]
    by_cases hk : Val.str n ∈ st.1.map Prod.fst
    · simpa [hk] using hnodup
    · simp only [hk, if_false]
      simp [List.nodup_append, hnodup, hk]
  · intro k hk
    rw [mappend_keys, setdefaultPure_keys] at hk
    by_cases hmem : Val.str n ∈ st.1.map Prod.fst
    · rw [if_pos hmem] at hk
      exact hstr k hk
    · rw [if_neg hmem] at hk
      rcases List.mem_append.mp hk with hk1 | hk2
      · exact hstr k hk1
      · simp only [List.mem_singleton] at hk2
        exact ⟨n, hk2⟩
  · intro q
    exact mlookup_update st.1 processed jobLevelSems hm1 j n hname q
  · intro q
    exact mlookup_update st.2 processed runLevelSems hm2 j n hname q

theorem semDocName_of_wf (j : Val) (h : wfSemJob j = true) :
    ∃ n, semDocName j = some n := by
  obtain ⟨kvs, fs, n, rfl, hJ, hN, _, _⟩ := (wfSemJob_iff j).mp h
  exact ⟨n, by simp [semDocName, hJ, hN]⟩

theorem foldlM_processSemJob (rest : List Val) (processed : List Val)
    (st : SemMap × SemMap) (hinv : SemInv processed st)
    (hwf : ∀ j ∈ rest, wfSemJob j = true) :
    ∃ st2, rest.foldlM processSemJob st = .ok st2 ∧
      SemInv (processed ++ rest) st2 := by
  induction rest generalizing processed st with
  | nil => exact ⟨st, by simp [List.foldlM_nil], by simpa using hinv⟩
  | cons j js ih =>
      obtain ⟨kvs, fs, n, rfl, hJ, hN, hsems, hrun⟩ :=
        (wfSemJob_iff j).mp (hwf j (List.mem_cons_self j js))
      have hname : semDocName (Val.dict kvs) = some n := by
        simp [semDocName, hJ, hN]
      have hstep := SemInv_step processed st hinv (Val.dict kvs) n hname
      obtain ⟨st2, hfold, hinv2⟩ := ih (processed ++ [Val.dict kvs]) _ hstep
        (fun y hy => hwf y (List.mem_cons_of_mem _ hy))
      refine ⟨st2, ?_, ?_⟩
      · rw [List.foldlM_cons,
          processSemJob_eq st kvs fs n hJ hN hsems hrun, ok_bind, hfold]
      · simpa [List.append_assoc] using hinv2

theorem setOfList_hashable (l : List Val) (h : ∀ x ∈ l, hashable x = true) :
    setOfList l = .ok l.toFinset := by
  induction l with
  | nil => rfl
  | cons x xs ih =>
      have hx := h x (List.mem_cons_self x xs)
      simp only [setOfList, hx, if_true]
      rw [ih (fun y hy => h y (List.mem_cons_of_mem _ hy))]
      simp [List.toFinset_cons]

theorem semFinal_char (rm : SemMap) (entries : SemMap) (acc : Finset Val)
    (hvals : ∀ p ∈ entries, ∀ x ∈ p.2, hashable x = true)
    (hrm : ∀ p ∈ entries, ∀ x ∈ (mlookup rm p.1).getD [], hashable x = true) :
    ∃ D, semFinal rm entries acc = .ok D ∧
      ∀ x, x ∈ D ↔ x ∈ acc ∨ ∃ p ∈ entries,
        x ∈ p.2.toFinset ∧ x ∈ ((mlookup rm p.1).getD []).toFinset := by
  induction entries generalizing acc with
  | nil => exact ⟨acc, rfl, by simp⟩
  | cons p ps ih =>
      obtain ⟨k, l⟩ := p
      have hl := hvals (k, l) (List.mem_cons_self _ ps)
      have hr := hrm (k, l) (List.mem_cons_self _ ps)
      obtain ⟨D, hD, hchar⟩ :=
        ih (acc ∪ (l.toFinset ∩ ((mlookup rm k).getD []).toFinset))
          (fun q hq => hvals q (List.mem_cons_of_mem _ hq))
          (fun q hq => hrm q (List.mem_cons_of_mem _ hq))
      refine ⟨D, ?_, ?_⟩
      · rw [semFinal, setOfList_hashable l hl, ok_bind,
          setOfList_hashable _ hr, ok_bind, hD]
      · intro x
        rw [hchar x]
        simp only [Finset.mem_union, Finset.mem_inter]
        constructor
        · rintro ((ha | hab) | ⟨q, hq, h1, h2⟩)
          · exact Or.inl ha
          · exact Or.inr ⟨(k, l), List.mem_cons_self _ ps, hab.1, hab.2⟩
          · exact Or.inr ⟨q, List.mem_cons_of_mem _ hq, h1, h2⟩
        · rintro (ha | ⟨q, hq, h1, h2⟩)
          · exact Or.inl (Or.inl ha)
          · rcases List.mem_cons.mp hq with rfl | hq2
            · exact Or.inl (Or.inr ⟨h1, h2⟩)
            · exact Or.inr ⟨q, hq2, h1, h2⟩

theorem semsListOf_hashable (v : Option Val) (h : wfSems v = true) :
    ∀ x ∈ semsListOf v, hashable x = true := by
  intro x hx
  cases v with
  | none => simp [semsListOf] at hx
  | some w =>
      cases w with
      | str s =>
          simp only [semsListOf, List.mem_singleton] at hx
          subst hx
          rfl
      | list xs =>
          simp only [semsListOf] at hx
          exact hashable_of_isStrB x ((List.all_eq_true.mp (by simpa [wfSems] using h)) x hx)
      | int m => simp [wfSems] at h
      | null => simp [wfSems] at h
      | dict d => simp [wfSems] at h

theorem jobLevelSems_hashable (j : Val) (h : wfSemJob j = true) :
    ∀ x ∈ jobLevelSems j, hashable x = true := by
  obtain ⟨kvs, fs, n, rfl, hJ, hN, hsems, hrun⟩ := (wfSemJob_iff j).mp h
  intro x hx
  rw [show jobLevelSems (Val.dict kvs) = semsListOf (vlookup fs "semaphores")
    from by simp [jobLevelSems, hJ]] at hx
  exact semsListOf_hashable _ hsems x hx

theorem runEntrySems_hashable (e : Val) (h : wfRunEntry e = true) :
    ∀ x ∈ runEntrySems e, hashable x = true := by
  intro x hx
  cases e with
  | dict ekvs =>
      exact semsListOf_hashable _ (by simpa [wfRunEntry] using h) x hx
  | str s => simp [runEntrySems] at hx
  | int m => simp [runEntrySems] at hx
  | null => simp [runEntrySems] at hx
  | list xs => simp [runEntrySems] at hx

theorem runLevelSems_hashable (j : Val) (h : wfSemJob j = true) :
    ∀ x ∈ runLevelSems j, hashable x = true := by
  obtain ⟨kvs, fs, n, rfl, hJ, hN, hsems, hrun⟩ := (wfSemJob_iff j).mp h
  intro x hx
  rcases hR : vlookup fs "run" with _ | w
  · rw [show runLevelSems (Val.dict kvs) = [] from by
      simp [runLevelSems, hJ, hR]] at hx
    simp at hx
  · cases w with
    | str s =>
        rw [show runLevelSems (Val.dict kvs) = [] from by
          simp [runLevelSems, hJ, hR]] at hx
        simp at hx
    | dict rkvs =>
        rw [hR] at hrun
        rw [show runLevelSems (Val.dict kvs) = runEntrySems (Val.dict rkvs)
          from by simp [runLevelSems, hJ, hR]] at hx
        exact runEntrySems_hashable _ (by simpa [wfRunEntry] using hrun) x hx
    | list es =>
        rw [hR] at hrun
        rw [show runLevelSems (Val.dict kvs) = es.flatMap runEntrySems
          from by simp [runLevelSems, hJ, hR]] at hx
        obtain ⟨e, he, hxe⟩ := List.mem_flatMap.mp hx
        exact runEntrySems_hashable e
          ((List.all_eq_true.mp hrun) e he) x hxe
    | int m => rw [hR] at hrun; simp [wfRunVal] at hrun
    | null => rw [hR] at hrun; simp [wfRunVal] at hrun

theorem mergedSems_hashable (g : Val → List Val) (jobs : List Val)
    (hg : ∀ j ∈ jobs, ∀ x ∈ g j, hashable x = true) (n : String) :
    ∀ x ∈ mergedSems g jobs n, hashable x = true := by
  intro x hx
  obtain ⟨j, hj, hxj⟩ := List.mem_flatMap.mp hx
  exact hg j (List.mem_of_mem_filter hj) x hxj

theorem semaphore_char (jobs : List Val)
    (hwf : ∀ j ∈ jobs, wfSemJob j = true) :
    ∃ D, check_duplicate_semaphore jobs = .ok D ∧
      ∀ x, x ∈ D ↔ ∃ n, n ∈ semNames jobs ∧
        x ∈ (mergedSems jobLevelSems jobs n).toFinset ∧
        x ∈ (mergedSems runLevelSems jobs n).toFinset := by
  obtain ⟨st2, hfold, hinv⟩ :=
    foldlM_processSemJob jobs [] ([], []) SemInv_nil hwf
  rw [List.nil_append] at hinv
  obtain ⟨hkeys, hnodup, hstr, hm1, hm2⟩ := hinv
  have hjh : ∀ n : String, ∀ x ∈ mergedSems jobLevelSems jobs n, hashable x = true :=
    fun n => mergedSems_hashable _ jobs
      (fun j hj => jobLevelSems_hashable j (hwf j hj)) n
  have hrh : ∀ n : String, ∀ x ∈ mergedSems runLevelSems jobs n, hashable x = true :=
    fun n => mergedSems_hashable _ jobs
      (fun j hj => runLevelSems_hashable j (hwf j hj)) n
  have hentry : ∀ p ∈ st2.1, ∃ n : String, p.1 = Val.str n ∧
      n ∈ semNames jobs ∧ p.2 = mergedSems jobLevelSems jobs n ∧
      (mlookup st2.2 p.1).getD [] = mergedSems runLevelSems jobs n := by
    intro p hp
    obtain ⟨n, hn⟩ := hstr p.1 (List.mem_map.mpr ⟨p, hp, rfl⟩)
    have hlook : mlookup st2.1 p.1 = some p.2 := by
      apply mlookup_eq_of_mem_nodup st2.1 hnodup p.1 p.2
      simpa using hp
    rw [hn, hm1 n] at hlook
    by_cases hmem : n ∈ semNames jobs
    · rw [if_pos hmem] at hlook
      refine ⟨n, hn, hmem, (Option.some.inj hlook).symm, ?_⟩
      rw [hn, hm2 n, if_pos hmem]
      rfl
    · rw [if_neg hmem] at hlook
      exact absurd hlook (by simp)
  obtain ⟨D, hD, hchar⟩ := semFinal_char st2.2 st2.1 ∅
    (by
      intro p hp
      obtain ⟨n, _, _, hpj, _⟩ := hentry p hp
      rw [hpj]
      exact hjh n)
    (by
      intro p hp
      obtain ⟨n, _, _, _, hpr⟩ := hentry p hp
      rw [hpr]
      exact hrh n)
  refine ⟨D, ?_, ?_⟩
  · unfold check_duplicate_semaphore
    rw [hfold, ok_bind, hD]
  · intro x
    rw [hchar x]
    simp only [Finset.not_mem_empty, false_or]
    constructor
    · rintro ⟨p, hp, h1, h2⟩
      obtain ⟨n, hn, hmem, hpj, hpr⟩ := hentry p hp
      rw [hpj] at h1
      rw [hpr] at h2
      exact ⟨n, hmem, h1, h2⟩
    · rintro ⟨n, hmem, h1, h2⟩
      have hlook : mlookup st2.1 (Val.str n) =
          some (mergedSems jobLevelSems jobs n) := by
        rw [hm1 n, if_pos hmem]
      have hpmem := mem_of_mlookup st2.1 _ _ hlook
      refine ⟨(Val.str n, mergedSems jobLevelSems jobs n), hpmem, h1, ?_⟩
      have : (mlookup st2.2 (Val.str n)).getD [] =
          mergedSems runLevelSems jobs n := by
        rw [hm2 n, if_pos hmem]
        rfl
      rw [this]
      exact h2

/-- A job document declaring a semaphore only at the job level. -/
def semDocJobLevel (n s : String) : Val :=
  Val.dict [("job", Val.dict [("name", Val.str n),
    ("semaphores", Val.list [Val.str s])])]

/-- A job document declaring a semaphore only on a run-phase entry. -/
def semDocRunLevel (n s : String) : Val :=
  Val.dict [("job", Val.dict [("name", Val.str n),
    ("run", Val.list [Val.dict [("semaphores", Val.list [Val.str s])]])])]

/-- C10.  Semaphore collection is keyed by job name: for any name and any
semaphore, two distinct documents sharing that name -- one declaring the
semaphore at the job level, the other on a run-phase entry -- make the
checker flag the semaphore, even though neither document alone carries it at
both levels (each per-document intersection is empty). -/
theorem check_duplicate_semaphore_merges_by_name (n s : String) :
    check_duplicate_semaphore [semDocJobLevel n s, semDocRunLevel n s] =
      .ok {Val.str s} ∧
    (jobLevelSems (semDocJobLevel n s)).toFinset ∩
      (runLevelSems (semDocJobLevel n s)).toFinset = ∅ ∧
    (jobLevelSems (semDocRunLevel n s)).toFinset ∩
      (runLevelSems (semDocRunLevel n s)).toFinset = ∅ := by
  have hwf : ∀ j ∈ [semDocJobLevel n s, semDocRunLevel n s],
      wfSemJob j = true := by
    intro j hj
    rcases List.mem_cons.mp hj with rfl | hj2
    · simp [wfSemJob, semDocJobLevel, vlookup, wfSems, isStrB, wfRunVal]
    · rcases List.mem_cons.mp hj2 with rfl | h3
      · simp [wfSemJob, semDocRunLevel, vlookup, wfSems, isStrB, wfRunVal,
          wfRunEntry]
      · simp at h3
  obtain ⟨D, hD, hchar⟩ :=
    semaphore_char [semDocJobLevel n s, semDocRunLevel n s] hwf
  have hn1 : semNames [semDocJobLevel n s, semDocRunLevel n s] = [n, n] := by
    simp [semNames, semDocName, semDocJobLevel, semDocRunLevel, vlookup]
  have hmj : mergedSems jobLevelSems [semDocJobLevel n s, semDocRunLevel n s] n
      = [Val.str s] := by
    simp [mergedSems, semDocName, semDocJobLevel, semDocRunLevel, vlookup,
      jobLevelSems, semsListOf]
  have hmr : mergedSems runLevelSems [semDocJobLevel n s, semDocRunLevel n s] n
      = [Val.str s] := by
    simp [mergedSems, semDocName, semDocJobLevel, semDocRunLevel, vlookup,
      runLevelSems, runEntrySems, semsListOf]
  have hD2 : D = {Val.str s} := by
    ext x
    rw [hchar x, hn1]
    constructor
    · rintro ⟨q, hq, hx1, hx2⟩
      have hqn : q = n := by
        rcases List.mem_cons.mp hq with rfl | hq2
        · rfl
        · simpa using hq2
      subst hqn
      rw [hmj] at hx1
      simpa using hx1
    · intro hx
      rw [Finset.mem_singleton] at hx
      subst hx
      exact ⟨n, by simp, by rw [hmj]; simp, by rw [hmr]; simp⟩
  refine ⟨by rw [hD, hD2], ?_, ?_⟩
  · simp [jobLevelSems, runLevelSems, semDocJobLevel, vlookup, semsListOf]
  · simp [jobLevelSems, runLevelSems, semDocRunLevel, vlookup, semsListOf,
      runEntrySems]

/-- The union over the documents of the per-document intersection of
job-level and run-level semaphores -- the per-job formula stated by the
specification, evaluated per document. -/
def perDocSelfConflicts (jobs : List Val) : Finset Val :=
  jobs.foldr (fun j acc =>
    ((jobLevelSems j).toFinset ∩ (runLevelSems j).toFinset) ∪ acc) ∅

theorem mem_perDocSelfConflicts (jobs : List Val) (x : Val) :
    x ∈ perDocSelfConflicts jobs ↔ ∃ j ∈ jobs,
      x ∈ (jobLevelSems j).toFinset ∧ x ∈ (runLevelSems j).toFinset := by
  induction jobs with
  | nil => simp [perDocSelfConflicts]
  | cons j js ih =>
      rw [show perDocSelfConflicts (j :: js) =
        ((jobLevelSems j).toFinset ∩ (runLevelSems j).toFinset) ∪
          perDocSelfConflicts js from rfl]
      simp only [Finset.mem_union, Finset.mem_inter, ih, List.mem_cons]
      constructor
      · rintro (⟨h1, h2⟩ | ⟨q, hq, h1, h2⟩)
        · exact ⟨j, Or.inl rfl, h1, h2⟩
        · exact ⟨q, Or.inr hq, h1, h2⟩
      · rintro ⟨q, rfl | hq, h1, h2⟩
        · exact Or.inl ⟨h1, h2⟩
        · exact Or.inr ⟨q, hq, h1, h2⟩

/-- C1 counterexample: two documents named j1, one with job-level semaphore
s1, the other with run-level semaphore s1.  No document carries s1 at both
levels, so the per-document union of intersections is empty, yet the checker
returns the singleton s1. -/
theorem check_duplicate_semaphore_not_per_document :
    check_duplicate_semaphore
        [Val.dict [("job", Val.dict [("name", Val.str "j1"),
           ("semaphores", Val.list [Val.str "s1"])])],
         Val.dict [("job", Val.dict [("name", Val.str "j1"),
           ("run", Val.list [Val.dict
             [("semaphores", Val.list [Val.str "s1"])]])])]] =
      .ok {Val.str "s1"} ∧
    perDocSelfConflicts
        [Val.dict [("job", Val.dict [("name", Val.str "j1"),
           ("semaphores", Val.list [Val.str "s1"])])],
         Val.dict [("job", Val.dict [("name", Val.str "j1"),
           ("run", Val.list [Val.dict
             [("semaphores", Val.list [Val.str "s1"])]])])]] = ∅ ∧
    ({Val.str "s1"} : Finset Val) ≠ (∅ : Finset Val) := by
  refine ⟨by decide, by decide, by decide⟩

theorem mergedSems_eq_single (g : Val → List Val) :
    ∀ jobs : List Val, (jobs.filterMap semDocName).Nodup →
      ∀ j ∈ jobs, ∀ n : String, semDocName j = some n →
        mergedSems g jobs n = g j
  | [], _, j, hj, _, _ => by simp at hj
  | j0 :: js, hnodup, j, hj, n, hn => by
      rcases List.mem_cons.mp hj with rfl | hj2
      · have hfilter : js.filter (fun j2 => decide (semDocName j2 = some n)) = [] := by
          rw [List.filter_eq_nil_iff]
          intro j2 hj2
          simp only [decide_eq_true_eq]
          intro hc
          have hmem : n ∈ js.filterMap semDocName :=
            List.mem_filterMap.mpr ⟨j2, hj2, hc⟩
          rw [List.filterMap_cons, hn] at hnodup
          exact (List.nodup_cons.mp hnodup).1 hmem
        unfold mergedSems
        rw [List.filter_cons_of_pos (by simp [hn]), hfilter,
          List.flatMap_cons, List.flatMap_nil, List.append_nil]
      · have htail : (js.filterMap semDocName).Nodup := by
          rw [List.filterMap_cons] at hnodup
          cases hsd : semDocName j0 with
          | none => rw [hsd] at hnodup; exact hnodup
          | some m => rw [hsd] at hnodup; exact (List.nodup_cons.mp hnodup).2
        have hne : ¬(semDocName j0 = some n) := by
          intro hc
          have hmem : n ∈ js.filterMap semDocName :=
            List.mem_filterMap.mpr ⟨j, hj2, hn⟩
          rw [List.filterMap_cons, hc] at hnodup
          exact (List.nodup_cons.mp hnodup).1 hmem
        unfold mergedSems
        rw [List.filter_cons_of_neg (by simp [hne])]
        exact mergedSems_eq_single g js htail j hj2 n hn

/-- C1 amended.  For well-formed job documents whose names are pairwise
distinct, the checker returns exactly the union over all documents of the
intersection of that document's job-level semaphore set with the union of
semaphore sets on its run-phase entries; cross-job overlaps never appear.
(When two documents share a name their lists are merged by name first, so
the per-document formula holds only under the distinctness restriction.) -/
theorem check_duplicate_semaphore_distinct_names (jobs : List Val)
    (hwf : ∀ j ∈ jobs, wfSemJob j = true)
    (hnodup : (jobs.filterMap semDocName).Nodup) :
    check_duplicate_semaphore jobs = .ok (perDocSelfConflicts jobs) := by
  obtain ⟨D, hD, hchar⟩ := semaphore_char jobs hwf
  rw [hD]
  congr 1
  ext x
  rw [hchar x, mem_perDocSelfConflicts]
  constructor
  · rintro ⟨n, hn, h1, h2⟩
    obtain ⟨j, hj, hjn⟩ :=
      List.mem_filterMap.mp (by simpa [semNames] using hn)
    rw [mergedSems_eq_single jobLevelSems jobs hnodup j hj n hjn] at h1
    rw [mergedSems_eq_single runLevelSems jobs hnodup j hj n hjn] at h2
    exact ⟨j, hj, h1, h2⟩
  · rintro ⟨j, hj, h1, h2⟩
    obtain ⟨n, hn⟩ := semDocName_of_wf j (hwf j hj)
    refine ⟨n, by simpa [semNames] using List.mem_filterMap.mpr ⟨j, hj, hn⟩,
      ?_, ?_⟩
    · rw [mergedSems_eq_single jobLevelSems jobs hnodup j hj n hn]
      exact h1
    · rw [mergedSems_eq_single runLevelSems jobs hnodup j hj n hn]
      exact h2

/-- Witness for the amended C1: the specification example -- job1 with
semaphores s1, s2 and run semaphore s1, job2 with semaphores s3, s4 and run
semaphore s2 -- evaluated through the theorem. -/
theorem check_duplicate_semaphore_distinct_names_witness :
    check_duplicate_semaphore
        [Val.dict [("job", Val.dict [("name", Val.str "job1"),
           ("semaphores", Val.list [Val.str "s1", Val.str "s2"]),
           ("run", Val.list [Val.dict [("semaphores", Val.str "s1")]])])],
         Val.dict [("job", Val.dict [("name", Val.str "job2"),
           ("semaphores", Val.list [Val.str "s3", Val.str "s4"]),
           ("run", Val.list [Val.dict [("semaphores", Val.str "s2")]])])]] =
      .ok (perDocSelfConflicts
        [Val.dict [("job", Val.dict [("name", Val.str "job1"),
           ("semaphores", Val.list [Val.str "s1", Val.str "s2"]),
           ("run", Val.list [Val.dict [("semaphores", Val.str "s1")]])])],
         Val.dict [("job", Val.dict [("name", Val.str "job2"),
           ("semaphores", Val.list [Val.str "s3", Val.str "s4"]),
           ("run", Val.list [Val.dict [("semaphores", Val.str "s2")]])])]]) :=
  check_duplicate_semaphore_distinct_names _ (by decide) (by decide)

end Zuulcilint
